import Mathlib

/-!
A verification development for the catma-py annotation engine
(catma_py/catma.py).  The Python classes and functions that the checked
properties depend on are embedded shallowly: integer offsets become Int,
Python lists become List, the insertion-ordered dict of the stand-off merger
becomes an association list with update-in-place/append semantics, and code
paths that raise exceptions return Option/Except values.
-/

set_option maxHeartbeats 1000000

namespace Catma

/-- The version of the generated CATMA import/export file format
(constant CATMA_TEI_VERSION in the source). -/
def CATMA_TEI_VERSION : Int := 5

/-- Mirrors class Range: a segment of text given by its start and end
character offsets.  The Python attribute named end is a Lean keyword and is
rendered as stop throughout this file. -/
structure Range where
  start : Int
  stop : Int
deriving DecidableEq

namespace Range

/-- Method Range.is_in_between_inclusive_edge: point within bounds, edges
included. -/
def is_in_between_inclusive_edge (self : Range) (point : Int) : Bool :=
  decide (point ≥ self.start) && decide (point ≤ self.stop)

/-- Method Range.is_in_between_exclusive_edge: point within bounds, edges
excluded. -/
def is_in_between_exclusive_edge (self : Range) (point : Int) : Bool :=
  decide (point > self.start) && decide (point < self.stop)

/-- Method Range.is_after: the given point is after the end of this Range. -/
def is_after (self : Range) (point : Int) : Bool :=
  decide (self.stop < point)

/-- Method Range.is_in_between (on a Range argument): this Range lies in
between the other Range. -/
def is_in_between (self other : Range) : Bool :=
  decide (self.start ≥ other.start) && decide (self.stop ≤ other.stop)

/-- Method Range.is_point. -/
def is_point (self : Range) : Bool :=
  decide (self.start = self.stop)

/-- Method Range.get_overlapping_range. -/
def get_overlapping_range (self other : Range) : Option Range :=
  if other.start = self.stop ∨ self.start = other.stop then
    none
  else if self.is_in_between_inclusive_edge other.start then
    if self.is_in_between_inclusive_edge other.stop then
      some ⟨other.start, other.stop⟩
    else if self.is_after other.stop then
      some ⟨other.start, self.stop⟩
    else
      none
  else if !(self.is_after other.start) then
    if self.is_in_between_inclusive_edge other.stop then
      some ⟨self.start, other.stop⟩
    else if self.is_after other.stop then
      some ⟨self.start, self.stop⟩
    else
      none
  else
    none

/-- Method Range.has_overlapping_range. -/
def has_overlapping_range (self other : Range) : Bool :=
  (self.get_overlapping_range other).isSome

/-- Method Range.get_overlapping_ranges: the sublist of the given ranges that
overlap this Range (in the given order). -/
def get_overlapping_ranges (self : Range) (ranges : List Range) : List Range :=
  ranges.filter (fun other => self.has_overlapping_range other)

/-- Method Range.get_disjoint_ranges: zero, one or two disjoint Ranges
between this Range and the other Range. -/
def get_disjoint_ranges (self other : Range) : List Range :=
  if self.is_in_between_exclusive_edge other.start then
    ⟨self.start, other.start⟩ ::
      (if self.is_in_between_exclusive_edge other.stop then
        [⟨other.stop, self.stop⟩]
       else
        [])
  else if !(self.is_after other.stop) then
    [⟨other.stop, self.stop⟩]
  else
    []

/-- Python operator Range.__le__. -/
def le (self other : Range) : Bool :=
  if self.start ≤ other.start then decide (self.stop ≤ other.stop) else false

/-- Python operator Range.__lt__. -/
def lt (self other : Range) : Bool :=
  if self.start < other.start then true
  else if self.start = other.start then decide (self.stop < other.stop)
  else false

/-- Python operator Range.__ge__. -/
def ge (self other : Range) : Bool :=
  if self.start ≥ other.start then decide (self.stop ≥ other.stop) else false

/-- Python operator Range.__gt__. -/
def gt (self other : Range) : Bool :=
  if self.start > other.start then true
  else if self.start = other.start then decide (self.stop > other.stop)
  else false

/-- Helper of the static method Range.merge_ranges: the loop body carrying
the running cur_range. -/
def merge_ranges_go (cur_range : Range) : List Range → List Range
  | [] => [cur_range]
  | r :: rest =>
    if cur_range.stop = r.start then merge_ranges_go ⟨cur_range.start, r.stop⟩ rest
    else cur_range :: merge_ranges_go r rest

/-- Static method Range.merge_ranges: combines contiguous ranges of a sorted
list into one. -/
def merge_ranges : List Range → List Range
  | [] => []
  | r :: rest => merge_ranges_go r rest

end Range

theorem is_in_between_inclusive_edge_iff (self : Range) (p : Int) :
    self.is_in_between_inclusive_edge p = true ↔ (self.start ≤ p ∧ p ≤ self.stop) := by
  simp [Range.is_in_between_inclusive_edge]

theorem is_in_between_exclusive_edge_iff (self : Range) (p : Int) :
    self.is_in_between_exclusive_edge p = true ↔ (self.start < p ∧ p < self.stop) := by
  simp [Range.is_in_between_exclusive_edge]

theorem is_after_iff (self : Range) (p : Int) :
    self.is_after p = true ↔ self.stop < p := by
  simp [Range.is_after]

theorem is_in_between_iff (self other : Range) :
    self.is_in_between other = true ↔ (other.start ≤ self.start ∧ self.stop ≤ other.stop) := by
  simp [Range.is_in_between]

/-- Membership of a point in a Range under the half-open reading used by the
partitioning (claim vocabulary, not a method of the source). -/
def rmem (r : Range) (p : Int) : Bool :=
  decide (r.start ≤ p) && decide (p < r.stop)

theorem rmem_iff (r : Range) (p : Int) :
    rmem r p = true ↔ (r.start ≤ p ∧ p < r.stop) := by
  simp [rmem]

/-- An annotation as far as the stand-off merger is concerned: an identity
(Python object identity, modelled as a number) and the list of its Ranges.
Mirrors class Annotation restricted to the fields merge_ranges reads. -/
structure Anno where
  id : Nat
  ranges : List Range
deriving DecidableEq

/-- The merger's dictionary: Python 3 dicts preserve insertion order, update
values in place for existing keys, and append new keys at the end.  Keys are
Ranges (hashable by the (start, end) pair), values are lists of annotation
identities. -/
abbrev MergedMap := List (Range × List Nat)

/-- Assignment d[k] = v on an insertion-ordered dict. -/
def dictSet (m : MergedMap) (k : Range) (v : List Nat) : MergedMap :=
  match m with
  | [] => [(k, v)]
  | (k', v') :: rest => if k' = k then (k, v) :: rest else (k', v') :: dictSet rest k v

/-- Removal d.pop(k) on an insertion-ordered dict (removes the first entry
with the given key; a dict has at most one). -/
def dictPop (m : MergedMap) (k : Range) : MergedMap :=
  match m with
  | [] => []
  | (k', v') :: rest => if k' = k then rest else (k', v') :: dictPop rest k

/-- Lookup d.get(k). -/
def dictGet (m : MergedMap) (k : Range) : Option (List Nat) :=
  match m with
  | [] => none
  | (k', v') :: rest => if k' = k then some v' else dictGet rest k

/-- d.keys() in insertion order. -/
def dictKeys (m : MergedMap) : List Range :=
  m.map Prod.fst

/-- The body of the innermost loop of TEIAnnotationWriter.merge_ranges,
processing one affected existing key for one target range of one annotation.
Python reads merged_ranges[affected_range] directly; the key is always
present when this is reached (earlier iterations pop only their own,
distinct, keys), so the .getD [] default is never taken on reachable states.
The branch in which get_overlapping_range is None or get_disjoint_ranges is
empty corresponds to Python inserting under key None or raising IndexError;
it is modelled as failure and is unreachable for ranges inside [0, L). -/
def processAffected (annoId : Nat) (target_range : Range) (m : MergedMap)
    (affected_range : Range) : Option MergedMap :=
  let affected_annotations := (dictGet m affected_range).getD []
  if affected_range.is_in_between target_range then
    some (dictSet m affected_range (affected_annotations ++ [annoId]))
  else
    match affected_range.get_overlapping_range target_range,
          affected_range.get_disjoint_ranges target_range with
    | some overlapping_range, first_disjoint_range :: rest =>
      let m1 := dictSet m first_disjoint_range affected_annotations
      let m2 :=
        match rest with
        | second_disjoint_range :: _ => dictSet m1 second_disjoint_range affected_annotations
        | [] => m1
      let m3 := dictSet m2 overlapping_range (affected_annotations ++ [annoId])
      some (dictPop m3 affected_range)
    | _, _ => none

/-- Processing of one target range of one annotation: collect the affected
keys from the current dict, then fold the inner loop over them. -/
def processTarget (annoId : Nat) (target_range : Range) (m : MergedMap) :
    Option MergedMap :=
  let affected_ranges := target_range.get_overlapping_ranges (dictKeys m)
  affected_ranges.foldlM (processAffected annoId target_range) m

/-- Processing of one annotation: fold over its ranges. -/
def processAnno (m : MergedMap) (anno : Anno) : Option MergedMap :=
  anno.ranges.foldlM (fun acc r => processTarget anno.id r acc) m

/-- Method TEIAnnotationWriter.merge_ranges: builds the dictionary of
non-overlapping ranges and their covering annotations, seeded with
the single entry [0, text_length) mapped to the empty list. -/
def TEIAnnotationWriter.merge_ranges (text_length : Int) (annotations : List Anno) :
    Option MergedMap :=
  annotations.foldlM processAnno [(⟨0, text_length⟩, [])]

/-- Version handling of TEIAnnotationReader.read_metadata: the version is
the integer content of the format-version element if that element is
present, 0 otherwise; any value other than CATMA_TEI_VERSION raises. -/
def TEIAnnotationReader.read_metadata_version (version_node : Option Int) :
    Except String Int :=
  let version := version_node.getD 0
  if version ≠ CATMA_TEI_VERSION then
    Except.error "This parser can only handle CATMA collections with version 5"
  else
    Except.ok version


/-- Python sorted(...) over Range keys: a stable ascending sort driven by the
Range.__lt__ comparison, modelled as insertion sort (insert step). -/
def insertSorted (x : Range) : List Range → List Range
  | [] => [x]
  | y :: ys => if Range.lt x y then x :: y :: ys else y :: insertSorted x ys

/-- Python sorted(...) over Range keys (driver). -/
def sortRanges (l : List Range) : List Range :=
  l.foldr insertSorted []

/-- C3: For text length L=10 and two annotations A (id 0) with the single
range [2,5) and B (id 1) with the single range [4,8), merge_ranges returns
exactly the five keys [0,2), [2,4), [4,5), [5,8), [8,10), mapped
respectively to the annotation sets empty, A, A and B, B, empty. -/
theorem merge_ranges_example_single_text :
    ∃ m, TEIAnnotationWriter.merge_ranges 10 [⟨0, [⟨2, 5⟩]⟩, ⟨1, [⟨4, 8⟩]⟩] = some m ∧
      sortRanges (dictKeys m) = [⟨0, 2⟩, ⟨2, 4⟩, ⟨4, 5⟩, ⟨5, 8⟩, ⟨8, 10⟩] ∧
      dictGet m ⟨0, 2⟩ = some [] ∧
      dictGet m ⟨2, 4⟩ = some [0] ∧
      dictGet m ⟨4, 5⟩ = some [0, 1] ∧
      dictGet m ⟨5, 8⟩ = some [1] ∧
      dictGet m ⟨8, 10⟩ = some [] :=
  ⟨[(⟨0, 2⟩, []), (⟨8, 10⟩, []), (⟨5, 8⟩, [1]), (⟨2, 4⟩, [0]), (⟨4, 5⟩, [0, 1])],
    by decide⟩

/-- C5 counterexample: get_disjoint_ranges can emit an empty range.  With
outer = inner = [0,5) the result is the single empty range [5,5), refuting
the claim that every emitted range has start strictly below end. -/
theorem get_disjoint_ranges_empty_counterexample :
    Range.get_disjoint_ranges ⟨0, 5⟩ ⟨0, 5⟩ = [⟨5, 5⟩] ∧ ¬ ((5 : Int) < 5) := by
  decide

/-- C5 amended: every range emitted by get_disjoint_ranges is non-empty
except when inner.end equals outer.end and the right-remainder branch is
taken, in which case the single emitted range is the empty
[outer.end, outer.end); and when inner starts at or before outer.start and
inner.end is strictly inside outer, the result is exactly the single right
remainder [inner.end, outer.end). -/
theorem get_disjoint_ranges_eval (outer inner : Range) :
    Range.get_disjoint_ranges outer inner =
      (if outer.start < inner.start ∧ inner.start < outer.stop then
        ⟨outer.start, inner.start⟩ ::
          (if outer.start < inner.stop ∧ inner.stop < outer.stop then
            [(⟨inner.stop, outer.stop⟩ : Range)] else [])
      else if inner.stop ≤ outer.stop then [⟨inner.stop, outer.stop⟩] else []) := by
  simp only [Range.get_disjoint_ranges, Range.is_in_between_exclusive_edge, Range.is_after,
    Bool.and_eq_true, decide_eq_true_eq, Bool.not_eq_true', decide_eq_false_iff_not, not_lt,
    gt_iff_lt]

theorem get_disjoint_ranges_amended (outer inner : Range) :
    (∀ r ∈ Range.get_disjoint_ranges outer inner,
        r.start < r.stop ∨ (inner.stop = outer.stop ∧ r = ⟨outer.stop, outer.stop⟩)) ∧
    (inner.start ≤ outer.start → outer.start < inner.stop → inner.stop < outer.stop →
        Range.get_disjoint_ranges outer inner = [⟨inner.stop, outer.stop⟩]) := by
  rw [get_disjoint_ranges_eval]
  constructor
  · intro r hr
    split_ifs at hr with h1 h2 h3
    · simp only [List.mem_cons, List.mem_singleton, List.not_mem_nil, or_false] at hr
      rcases hr with rfl | rfl
      · exact Or.inl (by dsimp only; omega)
      · exact Or.inl (by dsimp only; omega)
    · simp only [List.mem_singleton] at hr
      subst hr
      exact Or.inl (by dsimp only; omega)
    · simp only [List.mem_singleton] at hr
      subst hr
      rcases eq_or_lt_of_le h3 with h | h
      · exact Or.inr ⟨h, by rw [h]⟩
      · exact Or.inl (by dsimp only; omega)
    · exact absurd hr (by simp)
  · intro h1 h2 h3
    split_ifs with g1 g2 g3 <;> first
      | rfl
      | (exfalso; omega)

/-- C5 amended, witness: the particular right-remainder case evaluated at
outer = [2,9), inner = [1,5). -/
theorem get_disjoint_ranges_amended_witness :
    Range.get_disjoint_ranges ⟨2, 9⟩ ⟨1, 5⟩ = [⟨5, 9⟩] :=
  (get_disjoint_ranges_amended ⟨2, 9⟩ ⟨1, 5⟩).2 (by decide) (by decide) (by decide)

/-- C7 counterexample: Range.__le__ is not the lexicographic less-or-equal.
For a = [0,5) and b = [1,3) the pair (0,5) is lexicographically below
(1,3), yet a <= b is False in the source. -/
theorem range_le_not_lex_counterexample :
    ¬ ((Range.le ⟨0, 5⟩ ⟨1, 3⟩ = true) ↔
        ((0 : Int) < 1 ∨ ((0 : Int) = 1 ∧ (5 : Int) ≤ 3))) := by
  decide

/-- C7 amended: the strict comparisons __lt__ and __gt__ implement the
lexicographic strict order on (start, end), but __le__ and __ge__ implement
the componentwise (product) order, which differs from
lexicographic-or-equal. -/
theorem range_order_amended (a b : Range) :
    (Range.lt a b = true ↔ (a.start < b.start ∨ (a.start = b.start ∧ a.stop < b.stop))) ∧
    (Range.gt a b = true ↔ (b.start < a.start ∨ (a.start = b.start ∧ b.stop < a.stop))) ∧
    (Range.le a b = true ↔ (a.start ≤ b.start ∧ a.stop ≤ b.stop)) ∧
    (Range.ge a b = true ↔ (b.start ≤ a.start ∧ b.stop ≤ a.stop)) := by
  refine ⟨?_, ?_, ?_, ?_⟩ <;>
    simp only [Range.lt, Range.gt, Range.le, Range.ge] <;>
    split_ifs <;> simp <;> omega

/-- C8: the reader raises during metadata reading exactly when the
format-version element is missing or its integer value differs from 5, and
version 5 passes the check. -/
theorem read_metadata_version_check (version_node : Option Int) :
    ((∃ e, TEIAnnotationReader.read_metadata_version version_node = Except.error e) ↔
      (version_node = none ∨ ∃ n, version_node = some n ∧ n ≠ 5)) ∧
    TEIAnnotationReader.read_metadata_version (some 5) = Except.ok 5 := by
  constructor
  · cases version_node with
    | none => simp [TEIAnnotationReader.read_metadata_version, CATMA_TEI_VERSION]
    | some n =>
      simp only [TEIAnnotationReader.read_metadata_version, Option.getD_some,
        CATMA_TEI_VERSION]
      split_ifs with h
      · simp [h]
      · simp_all
  · rfl

/-! ### Dictionary lemmas for the merger proof -/

theorem dictKeys_dictSet_mem (m : MergedMap) (k : Range) (v : List Nat)
    (h : k ∈ dictKeys m) : dictKeys (dictSet m k v) = dictKeys m := by
  induction m with
  | nil => simp [dictKeys] at h
  | cons kv rest ih =>
    obtain ⟨k', v'⟩ := kv
    by_cases hk : k' = k
    · subst hk
      simp [dictSet, dictKeys]
    · simp only [dictKeys, List.map_cons, List.mem_cons] at h
      simp only [dictSet, if_neg hk, dictKeys, List.map_cons, List.cons.injEq, true_and]
      rcases h with h | h
      · exact absurd h.symm hk
      · exact ih h

theorem dictKeys_dictSet_not_mem (m : MergedMap) (k : Range) (v : List Nat)
    (h : k ∉ dictKeys m) : dictKeys (dictSet m k v) = dictKeys m ++ [k] := by
  induction m with
  | nil => simp [dictSet, dictKeys]
  | cons kv rest ih =>
    obtain ⟨k', v'⟩ := kv
    simp only [dictKeys, List.map_cons, List.mem_cons] at h
    push_neg at h
    simp only [dictSet, if_neg (Ne.symm h.1), dictKeys, List.map_cons, List.cons_append,
      List.cons.injEq, true_and]
    exact ih h.2

theorem nodup_dictKeys_dictSet (m : MergedMap) (k : Range) (v : List Nat)
    (h : (dictKeys m).Nodup) : (dictKeys (dictSet m k v)).Nodup := by
  by_cases hk : k ∈ dictKeys m
  · rw [dictKeys_dictSet_mem m k v hk]; exact h
  · rw [dictKeys_dictSet_not_mem m k v hk]
    simp [List.nodup_append, h, hk]

theorem dictKeys_dictPop (m : MergedMap) (k : Range) :
    dictKeys (dictPop m k) = (dictKeys m).erase k := by
  induction m with
  | nil => simp [dictPop, dictKeys]
  | cons kv rest ih =>
    obtain ⟨k', v'⟩ := kv
    by_cases hk : k' = k
    · subst hk
      simp [dictPop, dictKeys, List.erase_cons_head]
    · simp only [dictPop, if_neg hk, dictKeys, List.map_cons]
      rw [List.erase_cons_tail (by simp [hk])]
      exact congrArg (k' :: ·) ih

theorem nodup_dictKeys_dictPop (m : MergedMap) (k : Range)
    (h : (dictKeys m).Nodup) : (dictKeys (dictPop m k)).Nodup := by
  rw [dictKeys_dictPop]; exact h.erase k

theorem dictSet_cons (k0 : Range) (v0 : List Nat) (rest : MergedMap) (k : Range) (v : List Nat) :
    dictSet ((k0, v0) :: rest) k v =
      if k0 = k then (k, v) :: rest else (k0, v0) :: dictSet rest k v := rfl

theorem dictPop_cons (k0 : Range) (v0 : List Nat) (rest : MergedMap) (k : Range) :
    dictPop ((k0, v0) :: rest) k =
      if k0 = k then rest else (k0, v0) :: dictPop rest k := rfl

theorem dictGet_cons (k0 : Range) (v0 : List Nat) (rest : MergedMap) (k : Range) :
    dictGet ((k0, v0) :: rest) k =
      if k0 = k then some v0 else dictGet rest k := rfl

theorem dictKeys_cons (k0 : Range) (v0 : List Nat) (rest : MergedMap) :
    dictKeys ((k0, v0) :: rest) = k0 :: dictKeys rest := rfl

theorem mem_dictKeys_iff (m : MergedMap) (k : Range) :
    k ∈ dictKeys m ↔ ∃ v, (k, v) ∈ m := by
  constructor
  · intro h
    rcases List.mem_map.mp h with ⟨⟨a, b⟩, hm, he⟩
    dsimp only at he
    subst he
    exact ⟨b, hm⟩
  · rintro ⟨v, hv⟩
    exact List.mem_map_of_mem Prod.fst hv

theorem dictGet_dictSet (m : MergedMap) (k k' : Range) (v : List Nat) :
    dictGet (dictSet m k v) k' = if k = k' then some v else dictGet m k' := by
  induction m with
  | nil =>
    show (if k = k' then some v else none) = if k = k' then some v else dictGet [] k'
    rfl
  | cons kv rest ih =>
    obtain ⟨k0, v0⟩ := kv
    rw [dictSet_cons]
    by_cases hk : k0 = k
    · subst hk
      rw [if_pos rfl, dictGet_cons, dictGet_cons]
      by_cases h1 : k0 = k' <;> simp [h1]
    · rw [if_neg hk, dictGet_cons, dictGet_cons, ih]
      by_cases h1 : k0 = k'
      · have h2 : ¬ (k = k') := fun he => hk (h1.trans he.symm)
        simp [h1, h2]
      · simp [h1]

theorem dictGet_eq_none_iff (m : MergedMap) (k : Range) :
    dictGet m k = none ↔ k ∉ dictKeys m := by
  induction m with
  | nil => simp [dictGet, dictKeys]
  | cons kv rest ih =>
    obtain ⟨k0, v0⟩ := kv
    rw [dictGet_cons, dictKeys_cons]
    by_cases h1 : k0 = k
    · subst h1
      simp
    · have h2 : ¬ (k = k0) := fun he => h1 he.symm
      rw [if_neg h1, ih]
      simp only [List.mem_cons, not_or]
      simp [h2]

theorem dictGet_isSome_iff (m : MergedMap) (k : Range) :
    (dictGet m k).isSome = true ↔ k ∈ dictKeys m := by
  constructor
  · intro hs
    by_contra hmem
    rw [← dictGet_eq_none_iff] at hmem
    rw [hmem] at hs
    simp at hs
  · intro hmem
    rcases hh : dictGet m k with _ | v
    · exact absurd hmem ((dictGet_eq_none_iff m k).mp hh)
    · simp

theorem dictGet_dictPop (m : MergedMap) (k k' : Range)
    (h : (dictKeys m).Nodup) :
    dictGet (dictPop m k) k' = if k = k' then none else dictGet m k' := by
  induction m with
  | nil => simp [dictPop, dictGet]
  | cons kv rest ih =>
    obtain ⟨k0, v0⟩ := kv
    rw [dictKeys_cons, List.nodup_cons] at h
    rw [dictPop_cons]
    by_cases hk : k0 = k
    · subst hk
      rw [if_pos rfl, dictGet_cons]
      by_cases h1 : k0 = k'
      · subst h1
        rw [if_pos rfl, dictGet_eq_none_iff]
        exact h.1
      · rw [if_neg h1, if_neg h1]
    · rw [if_neg hk, dictGet_cons, dictGet_cons, ih h.2]
      by_cases h1 : k0 = k'
      · have h2 : ¬ (k = k') := fun he => hk (he.symm ▸ h1)
        simp [h1, h2]
      · simp [h1]

theorem mem_dictSet_iff (m : MergedMap) (k : Range) (v : List Nat)
    (hm : (dictKeys m).Nodup) (kv' : Range × List Nat) :
    kv' ∈ dictSet m k v ↔ (kv' = (k, v) ∨ (kv' ∈ m ∧ kv'.1 ≠ k)) := by
  induction m with
  | nil => simp [dictSet]
  | cons kv0 rest ih =>
    obtain ⟨k0, v0⟩ := kv0
    rw [dictKeys_cons, List.nodup_cons] at hm
    rw [dictSet_cons]
    by_cases hk : k0 = k
    · subst hk
      rw [if_pos rfl]
      simp only [List.mem_cons]
      constructor
      · rintro (h | h)
        · exact Or.inl h
        · right
          refine ⟨Or.inr h, fun he => ?_⟩
          rw [← he] at hm
          exact hm.1 ((mem_dictKeys_iff rest kv'.1).mpr ⟨kv'.2, by simpa using h⟩)
      · rintro (h | ⟨h2, hne⟩)
        · exact Or.inl h
        · rcases h2 with h2 | h2
          · exact absurd (by rw [h2]) hne
          · exact Or.inr h2
    · rw [if_neg hk]
      simp only [List.mem_cons, ih hm.2]
      constructor
      · rintro (h | h | ⟨h2, hne⟩)
        · refine Or.inr ⟨Or.inl h, fun he => ?_⟩
          rw [h] at he
          exact hk he
        · exact Or.inl h
        · exact Or.inr ⟨Or.inr h2, hne⟩
      · rintro (h | ⟨h2 | h2, hne⟩)
        · exact Or.inr (Or.inl h)
        · exact Or.inl h2
        · exact Or.inr (Or.inr ⟨h2, hne⟩)

theorem mem_dictPop_iff (m : MergedMap) (k : Range)
    (hm : (dictKeys m).Nodup) (kv' : Range × List Nat) :
    kv' ∈ dictPop m k ↔ (kv' ∈ m ∧ kv'.1 ≠ k) := by
  induction m with
  | nil => simp [dictPop]
  | cons kv0 rest ih =>
    obtain ⟨k0, v0⟩ := kv0
    rw [dictKeys_cons, List.nodup_cons] at hm
    rw [dictPop_cons]
    by_cases hk : k0 = k
    · subst hk
      rw [if_pos rfl]
      simp only [List.mem_cons]
      constructor
      · intro h
        refine ⟨Or.inr h, fun he => ?_⟩
        rw [← he] at hm
        exact hm.1 ((mem_dictKeys_iff rest kv'.1).mpr ⟨kv'.2, by simpa using h⟩)
      · rintro ⟨h2 | h2, hne⟩
        · exact absurd (by rw [h2]) hne
        · exact h2
    · rw [if_neg hk]
      simp only [List.mem_cons, ih hm.2]
      constructor
      · rintro (h | ⟨h2, hne⟩)
        · refine ⟨Or.inl h, fun he => ?_⟩
          rw [h] at he
          exact hk he
        · exact ⟨Or.inr h2, hne⟩
      · rintro ⟨h2 | h2, hne⟩
        · exact Or.inl h2
        · exact Or.inr ⟨h2, hne⟩

/-! ### The partition invariant of the merger -/

/-- The number of keys of the dict that contain the point p (half-open). -/
def keyCount (m : MergedMap) (p : Int) : Nat :=
  (dictKeys m).countP (fun r => rmem r p)

/-- The point p is covered for annotation identity a: some entry of the dict
contains p and lists a. -/
def covered (m : MergedMap) (a : Nat) (p : Int) : Prop :=
  ∃ kv ∈ m, rmem kv.1 p = true ∧ a ∈ kv.2

/-- The running invariant of the merger dictionary: keys are distinct, every
key is a well-formed subrange of [0, L), and every point of [0, L) lies in
exactly one key while points outside lie in none. -/
def Inv (L : Int) (m : MergedMap) : Prop :=
  (dictKeys m).Nodup ∧
  (∀ kv ∈ m, 0 ≤ kv.1.start ∧ kv.1.start ≤ kv.1.stop ∧ kv.1.stop ≤ L) ∧
  (∀ p : Int, keyCount m p = if 0 ≤ p ∧ p < L then 1 else 0)

theorem keyCount_dictSet_mem (m : MergedMap) (k : Range) (v : List Nat)
    (h : k ∈ dictKeys m) (p : Int) :
    keyCount (dictSet m k v) p = keyCount m p := by
  unfold keyCount
  rw [dictKeys_dictSet_mem m k v h]

theorem keyCount_dictSet_not_mem (m : MergedMap) (k : Range) (v : List Nat)
    (h : k ∉ dictKeys m) (p : Int) :
    keyCount (dictSet m k v) p = keyCount m p + (if rmem k p then 1 else 0) := by
  unfold keyCount
  rw [dictKeys_dictSet_not_mem m k v h, List.countP_append]
  simp [List.countP_cons]

theorem countP_erase_of_mem {α : Type} [DecidableEq α] (l : List α) (a : α)
    (q : α → Bool) (h : a ∈ l) :
    l.countP q = (l.erase a).countP q + (if q a then 1 else 0) := by
  induction l with
  | nil => simp at h
  | cons b t ih =>
    by_cases hb : b = a
    · subst hb
      rw [List.erase_cons_head, List.countP_cons]
    · rw [List.erase_cons_tail (by simp [hb])]
      rcases List.mem_cons.mp h with hba | ht
      · exact absurd hba.symm hb
      · rw [List.countP_cons, List.countP_cons, ih ht]
        omega

theorem keyCount_dictPop (m : MergedMap) (k : Range)
    (h : k ∈ dictKeys m) (p : Int) :
    keyCount m p = keyCount (dictPop m k) p + (if rmem k p then 1 else 0) := by
  unfold keyCount
  rw [dictKeys_dictPop]
  exact countP_erase_of_mem (dictKeys m) k (fun r => rmem r p) h

theorem dictGet_of_mem (m : MergedMap) (kv : Range × List Nat)
    (hm : (dictKeys m).Nodup) (h : kv ∈ m) :
    dictGet m kv.1 = some kv.2 := by
  induction m with
  | nil => simp at h
  | cons kv0 rest ih =>
    obtain ⟨k0, v0⟩ := kv0
    rw [dictKeys_cons, List.nodup_cons] at hm
    rw [dictGet_cons]
    rcases List.mem_cons.mp h with rfl | ht
    · rw [if_pos rfl]
    · rw [if_neg, ih hm.2 ht]
      intro he
      rw [he] at hm
      exact hm.1 ((mem_dictKeys_iff rest kv.1).mpr ⟨kv.2, ht⟩)

theorem mem_of_dictGet (m : MergedMap) (k : Range) (v : List Nat)
    (h : dictGet m k = some v) : (k, v) ∈ m := by
  induction m with
  | nil => simp [dictGet] at h
  | cons kv0 rest ih =>
    obtain ⟨k0, v0⟩ := kv0
    rw [dictGet_cons] at h
    by_cases h1 : k0 = k
    · subst h1
      rw [if_pos rfl] at h
      cases h
      exact List.mem_cons_self _ _
    · rw [if_neg h1] at h
      exact List.mem_cons_of_mem _ (ih h)

theorem two_mem_le_countP {α : Type} (l : List α) (a b : α) (q : α → Bool)
    (ha : a ∈ l) (hb : b ∈ l) (hne : a ≠ b) (qa : q a = true) (qb : q b = true) :
    2 ≤ l.countP q := by
  induction l with
  | nil => simp at ha
  | cons c t ih =>
    rcases List.mem_cons.mp ha with rfl | hat
    · rcases List.mem_cons.mp hb with rfl | hbt
      · exact absurd rfl hne
      · rw [List.countP_cons_of_pos _ _ qa]
        have : 0 < t.countP q := List.countP_pos_iff.mpr ⟨b, hbt, qb⟩
        omega
    · rcases List.mem_cons.mp hb with rfl | hbt
      · rw [List.countP_cons_of_pos _ _ qb]
        have : 0 < t.countP q := List.countP_pos_iff.mpr ⟨a, hat, qa⟩
        omega
      · have := ih hat hbt
        rw [List.countP_cons]
        omega

/-- Under the invariant, at most one entry contains any given point. -/
theorem unique_entry (L : Int) (m : MergedMap) (hInv : Inv L m)
    (kv1 kv2 : Range × List Nat) (p : Int)
    (h1 : kv1 ∈ m) (h2 : kv2 ∈ m)
    (q1 : rmem kv1.1 p = true) (q2 : rmem kv2.1 p = true) : kv1 = kv2 := by
  obtain ⟨hnd, _, hcount⟩ := hInv
  by_cases hk : kv1.1 = kv2.1
  · have g1 := dictGet_of_mem m kv1 hnd h1
    have g2 := dictGet_of_mem m kv2 hnd h2
    rw [hk] at g1
    rw [g2] at g1
    obtain ⟨a1, b1⟩ := kv1
    obtain ⟨a2, b2⟩ := kv2
    cases g1
    simp only at hk
    rw [hk]
  · exfalso
    have hmem1 : kv1.1 ∈ dictKeys m := (mem_dictKeys_iff m kv1.1).mpr ⟨kv1.2, h1⟩
    have hmem2 : kv2.1 ∈ dictKeys m := (mem_dictKeys_iff m kv2.1).mpr ⟨kv2.2, h2⟩
    have h2le : 2 ≤ keyCount m p :=
      two_mem_le_countP (dictKeys m) kv1.1 kv2.1 (fun r => rmem r p) hmem1 hmem2 hk q1 q2
    have := hcount p
    split_ifs at this <;> omega

/-- Under the invariant, every point of [0, L) has an entry containing it. -/
theorem exists_entry (L : Int) (m : MergedMap) (hInv : Inv L m)
    (p : Int) (hp : 0 ≤ p ∧ p < L) :
    ∃ kv ∈ m, rmem kv.1 p = true := by
  obtain ⟨_, _, hcount⟩ := hInv
  have := hcount p
  rw [if_pos hp] at this
  have hpos : 0 < keyCount m p := by omega
  obtain ⟨r, hr, hq⟩ := List.countP_pos_iff.mp hpos
  obtain ⟨v, hvm⟩ := (mem_dictKeys_iff m r).mp hr
  exact ⟨(r, v), hvm, hq⟩

/-! ### Arithmetic characterizations of the Range operations -/

theorem get_overlapping_range_eval (self other : Range) :
    Range.get_overlapping_range self other =
      (if other.start = self.stop ∨ self.start = other.stop then none
       else if self.start ≤ other.start ∧ other.start ≤ self.stop then
         (if self.start ≤ other.stop ∧ other.stop ≤ self.stop then
            some ⟨other.start, other.stop⟩
          else if self.stop < other.stop then some ⟨other.start, self.stop⟩
          else none)
       else if other.start ≤ self.stop then
         (if self.start ≤ other.stop ∧ other.stop ≤ self.stop then
            some ⟨self.start, other.stop⟩
          else if self.stop < other.stop then some ⟨self.start, self.stop⟩
          else none)
       else none) := by
  simp only [Range.get_overlapping_range, Range.is_in_between_inclusive_edge, Range.is_after,
    Bool.and_eq_true, decide_eq_true_eq, Bool.not_eq_true', decide_eq_false_iff_not, not_lt,
    ge_iff_le]

theorem rmem_point_false (r : Range) (p : Int) (h : r.start = r.stop) :
    rmem r p = false := by
  rw [rmem]
  simp only [Bool.and_eq_false_iff, decide_eq_false_iff_not, not_le, not_lt]
  omega

/-- The test selecting the affected keys: target.has_overlapping_range(key),
characterized for well-formed ranges. -/
theorem affected_iff (T K : Range) (hT : T.start ≤ T.stop) (hK : K.start ≤ K.stop) :
    T.has_overlapping_range K = true ↔
      ((T.start < T.stop ∧ K.start < K.stop ∧ T.start < K.stop ∧ K.start < T.stop) ∨
       (T.start = T.stop ∧ K.start < T.start ∧ T.start < K.stop) ∨
       (K.start = K.stop ∧ T.start < K.start ∧ K.start < T.stop)) := by
  unfold Range.has_overlapping_range
  rw [get_overlapping_range_eval]
  split_ifs <;>
    simp only [Option.isSome_some, Option.isSome_none, Bool.false_eq_true, eq_self_iff_true,
      true_iff, false_iff] <;>
    omega

/-- Scenario S1 of the non-contained merger branch: the target is strictly
inside the key, splitting it in two. -/
theorem overlap_S1 (K T : Range) (hT : T.start ≤ T.stop)
    (h1 : K.start < T.start) (h2 : T.stop < K.stop) :
    K.get_overlapping_range T = some ⟨T.start, T.stop⟩ := by
  rw [get_overlapping_range_eval, if_neg (by omega), if_pos (by omega), if_pos (by omega)]

theorem disjoint_S1 (K T : Range) (hT : T.start ≤ T.stop)
    (h1 : K.start < T.start) (h2 : T.stop < K.stop) :
    K.get_disjoint_ranges T = [⟨K.start, T.start⟩, ⟨T.stop, K.stop⟩] := by
  rw [get_disjoint_ranges_eval, if_pos (by omega), if_pos (by omega)]

/-- Scenario S2: the target starts strictly inside the key and runs to its
end or beyond, leaving only the left remainder. -/
theorem overlap_S2 (K T : Range) (h1 : K.start < T.start) (h2 : T.start < K.stop)
    (h3 : K.stop ≤ T.stop) :
    K.get_overlapping_range T = some ⟨T.start, K.stop⟩ := by
  rw [get_overlapping_range_eval, if_neg (by omega), if_pos (by omega)]
  split_ifs with h4 h5
  · simp only [Option.some.injEq, Range.mk.injEq, eq_self_iff_true, true_and]
    omega
  · rfl
  · exfalso; omega

theorem disjoint_S2 (K T : Range) (h1 : K.start < T.start) (h2 : T.start < K.stop)
    (h3 : K.stop ≤ T.stop) :
    K.get_disjoint_ranges T = [⟨K.start, T.start⟩] := by
  rw [get_disjoint_ranges_eval, if_pos (by omega), if_neg (by omega)]

/-- Scenario S3: the target starts at or before the key and ends strictly
inside it, leaving only the right remainder. -/
theorem overlap_S3 (K T : Range) (h1 : T.start ≤ K.start) (h2 : K.start < T.stop)
    (h3 : T.stop < K.stop) :
    K.get_overlapping_range T = some ⟨K.start, T.stop⟩ := by
  rw [get_overlapping_range_eval, if_neg (by omega)]
  split_ifs <;>
    first
      | rfl
      | (simp only [Option.some.injEq, Range.mk.injEq, eq_self_iff_true, true_and, and_true]
         omega)
      | (exfalso; omega)

theorem disjoint_S3 (K T : Range) (h1 : T.start ≤ K.start) (h2 : K.start < T.stop)
    (h3 : T.stop < K.stop) :
    K.get_disjoint_ranges T = [⟨T.stop, K.stop⟩] := by
  rw [get_disjoint_ranges_eval, if_neg (by omega), if_pos (by omega)]

/-! ### Replacing one key of the dictionary by a batch of new entries -/

theorem mem_dictKeys_dictSet (m : MergedMap) (k : Range) (v : List Nat) (k' : Range) :
    k' ∈ dictKeys (dictSet m k v) ↔ (k' ∈ dictKeys m ∨ k' = k) := by
  by_cases h : k ∈ dictKeys m
  · rw [dictKeys_dictSet_mem _ _ _ h]
    constructor
    · exact Or.inl
    · rintro (h' | rfl)
      · exact h'
      · exact h
  · rw [dictKeys_dictSet_not_mem _ _ _ h]
    simp [List.mem_append]

/-- The dict after writing a batch of pairwise-fresh (or point-keyed)
entries: keys stay distinct, membership, point counting and untouched-key
lookups are all as expected. -/
theorem foldSet_spec (ps : List (Range × List Nat)) :
    ∀ (m : MergedMap), (dictKeys m).Nodup → (ps.map Prod.fst).Nodup →
    (∀ q ∈ ps, q.1 ∉ dictKeys m ∨ q.1.start = q.1.stop) →
    ((dictKeys (ps.foldl (fun acc q => dictSet acc q.1 q.2) m)).Nodup ∧
     (∀ kv : Range × List Nat, kv ∈ ps.foldl (fun acc q => dictSet acc q.1 q.2) m ↔
        (kv ∈ ps ∨ (kv ∈ m ∧ kv.1 ∉ ps.map Prod.fst))) ∧
     (∀ p : Int, keyCount (ps.foldl (fun acc q => dictSet acc q.1 q.2) m) p =
        keyCount m p + (ps.map Prod.fst).countP (fun r => rmem r p)) ∧
     (∀ k', k' ∉ ps.map Prod.fst →
        dictGet (ps.foldl (fun acc q => dictSet acc q.1 q.2) m) k' = dictGet m k')) := by
  induction ps with
  | nil =>
    intro m hm _ _
    refine ⟨hm, ?_, ?_, ?_⟩
    · intro kv; simp
    · intro p; simp [keyCount]
    · intro k' _; rfl
  | cons q ps' ih =>
    intro m hm hps hfresh
    rw [List.map_cons, List.nodup_cons] at hps
    have hm1 : (dictKeys (dictSet m q.1 q.2)).Nodup := nodup_dictKeys_dictSet m q.1 q.2 hm
    have hfresh' : ∀ q' ∈ ps', q'.1 ∉ dictKeys (dictSet m q.1 q.2) ∨ q'.1.start = q'.1.stop := by
      intro q' hq'
      rcases hfresh q' (List.mem_cons_of_mem _ hq') with hf | hpt
      · left
        rw [mem_dictKeys_dictSet]
        rintro (h | h)
        · exact hf h
        · exact hps.1 (h ▸ List.mem_map_of_mem Prod.fst hq')
      · exact Or.inr hpt
    obtain ⟨c1, c2, c3, c4⟩ := ih (dictSet m q.1 q.2) hm1 hps.2 hfresh'
    have hstep : ∀ p : Int, keyCount (dictSet m q.1 q.2) p =
        keyCount m p + (if rmem q.1 p then 1 else 0) := by
      intro p
      rcases hfresh q (List.mem_cons_self _ _) with hf | hpt
      · rw [keyCount_dictSet_not_mem _ _ _ hf]
      · by_cases hmem : q.1 ∈ dictKeys m
        · rw [keyCount_dictSet_mem _ _ _ hmem, rmem_point_false _ _ hpt]
          simp
        · rw [keyCount_dictSet_not_mem _ _ _ hmem]
    refine ⟨c1, ?_, ?_, ?_⟩
    · intro kv
      rw [List.foldl_cons, c2 kv]
      constructor
      · rintro (h | ⟨hm1', hnotin⟩)
        · exact Or.inl (List.mem_cons_of_mem _ h)
        · rcases (mem_dictSet_iff m q.1 q.2 hm kv).mp hm1' with heq | ⟨hmm, hne⟩
          · left
            rw [heq]
            exact List.mem_cons_self _ _
          · right
            refine ⟨hmm, ?_⟩
            simp only [List.map_cons, List.mem_cons, not_or]
            exact ⟨hne, hnotin⟩
      · rintro (h | ⟨hmm, hnotin⟩)
        · rcases List.mem_cons.mp h with rfl | h'
          · right
            refine ⟨(mem_dictSet_iff m kv.1 kv.2 hm kv).mpr (Or.inl rfl), ?_⟩
            exact hps.1
          · exact Or.inl h'
        · simp only [List.map_cons, List.mem_cons, not_or] at hnotin
          right
          exact ⟨(mem_dictSet_iff m q.1 q.2 hm kv).mpr (Or.inr ⟨hmm, hnotin.1⟩), hnotin.2⟩
    · intro p
      rw [List.foldl_cons, c3 p, hstep p, List.map_cons, List.countP_cons]
      omega
    · intro k' hk'
      simp only [List.map_cons, List.mem_cons, not_or] at hk'
      rw [List.foldl_cons, c4 k' hk'.2, dictGet_dictSet, if_neg (fun he => hk'.1 he.symm)]
/-- Replacing the entry of key K by a batch of entries that partition K
pointwise preserves the invariant, leaves every other (non-point) key
untouched, and changes coverage exactly on the points of K. -/
theorem replace_entry_spec (L : Int) (m : MergedMap) (K : Range) (as : List Nat)
    (ps : List (Range × List Nat))
    (hInv : Inv L m)
    (hget : dictGet m K = some as)
    (hkeys : (ps.map Prod.fst).Nodup)
    (hne : ∀ q ∈ ps, q.1 ≠ K)
    (hfresh : ∀ q ∈ ps, q.1 ∉ dictKeys m ∨ q.1.start = q.1.stop)
    (hwf : ∀ q ∈ ps, 0 ≤ q.1.start ∧ q.1.start ≤ q.1.stop ∧ q.1.stop ≤ L)
    (hcnt : ∀ p : Int, (ps.map Prod.fst).countP (fun r => rmem r p) =
        if rmem K p then 1 else 0) :
    Inv L (dictPop (ps.foldl (fun acc q => dictSet acc q.1 q.2) m) K) ∧
    (∀ k', k' ∈ dictKeys m → k' ≠ K → k' ∉ ps.map Prod.fst →
      dictGet (dictPop (ps.foldl (fun acc q => dictSet acc q.1 q.2) m) K) k' = dictGet m k') ∧
    (∀ a' (p : Int),
      covered (dictPop (ps.foldl (fun acc q => dictSet acc q.1 q.2) m) K) a' p ↔
        ((∃ q ∈ ps, rmem q.1 p = true ∧ a' ∈ q.2) ∨
         (covered m a' p ∧ rmem K p = false))) := by
  obtain ⟨hnd, hwfm, hcount⟩ := hInv
  obtain ⟨f1, f2, f3, f4⟩ := foldSet_spec ps m hnd hkeys hfresh
  have hKnotin : K ∉ ps.map Prod.fst := by
    intro h
    rcases List.mem_map.mp h with ⟨q, hq, hq1⟩
    exact hne q hq hq1
  have hgetmf : dictGet (ps.foldl (fun acc q => dictSet acc q.1 q.2) m) K = some as := by
    rw [f4 K hKnotin]; exact hget
  have hKmf : K ∈ dictKeys (ps.foldl (fun acc q => dictSet acc q.1 q.2) m) := by
    rw [← dictGet_isSome_iff, hgetmf]; rfl
  have hKentry : (K, as) ∈ m := mem_of_dictGet m K as hget
  have hmem' : ∀ kv : Range × List Nat,
      kv ∈ dictPop (ps.foldl (fun acc q => dictSet acc q.1 q.2) m) K ↔
        ((kv ∈ ps ∨ (kv ∈ m ∧ kv.1 ∉ ps.map Prod.fst)) ∧ kv.1 ≠ K) := by
    intro kv
    rw [mem_dictPop_iff _ _ f1 kv, f2 kv]
  refine ⟨⟨nodup_dictKeys_dictPop _ _ f1, ?_, ?_⟩, ?_, ?_⟩
  · -- well-formed entries
    intro kv hkv
    rcases ((hmem' kv).mp hkv).1 with h | ⟨h, _⟩
    · exact hwf kv h
    · exact hwfm kv h
  · -- counting
    intro p
    have h1 := keyCount_dictPop (ps.foldl (fun acc q => dictSet acc q.1 q.2) m) K hKmf p
    have h2 := f3 p
    have h3 := hcnt p
    have h4 := hcount p
    rw [← h4]
    by_cases hr : rmem K p = true
    · rw [if_pos hr] at h1 h3
      omega
    · rw [if_neg hr] at h1 h3
      omega
  · -- untouched keys
    intro k' hk1 hk2 hk3
    rw [dictGet_dictPop _ _ _ f1, if_neg (fun he => hk2 he.symm), f4 k' hk3]
  · -- coverage
    intro a' p
    constructor
    · rintro ⟨kv, hkv, hr, ha⟩
      rcases ((hmem' kv).mp hkv).1 with h | ⟨h, hnotin⟩
      · exact Or.inl ⟨kv, h, hr, ha⟩
      · right
        refine ⟨⟨kv, h, hr, ha⟩, ?_⟩
      
        by_contra hKr
        rw [Bool.not_eq_false] at hKr
        have := unique_entry L m ⟨hnd, hwfm, hcount⟩ kv (K, as) p h hKentry hr hKr
        exact ((hmem' kv).mp hkv).2 (by rw [this])
    · rintro (⟨q, hq, hr, ha⟩ | ⟨⟨kv, hkvm, hr, ha⟩, hKfalse⟩)
      · exact ⟨q, (hmem' q).mpr ⟨Or.inl hq, hne q hq⟩, hr, ha⟩
      · have hkne : kv.1 ≠ K := by
          intro he
          rw [he] at hr
          rw [hr] at hKfalse
          exact Bool.noConfusion hKfalse
        have hknotin : kv.1 ∉ ps.map Prod.fst := by
          intro hmem
          rcases List.mem_map.mp hmem with ⟨q, hq, hq1⟩
          rcases hfresh q hq with hf | hpt
          · exact hf (hq1 ▸ (mem_dictKeys_iff m kv.1).mpr ⟨kv.2, hkvm⟩)
          · rw [← hq1] at hr
            rw [rmem_point_false q.1 p hpt] at hr
            exact Bool.noConfusion hr
        exact ⟨kv, (hmem' kv).mpr ⟨Or.inr ⟨hkvm, hknotin⟩, hkne⟩, hr, ha⟩
/-- A key r of the dictionary other than K cannot share a point with K. -/
theorem fresh_of_shared (L : Int) (m : MergedMap) (hInv : Inv L m)
    (K : Range) (as : List Nat) (hKentry : (K, as) ∈ m)
    (r : Range) (p : Int) (hrp : rmem r p = true) (hKp : rmem K p = true)
    (hner : r ≠ K) : r ∉ dictKeys m := by
  intro hmem
  obtain ⟨v, hv⟩ := (mem_dictKeys_iff m r).mp hmem
  have hu := unique_entry L m hInv (r, v) (K, as) p hv hKentry hrp hKp
  exact hner (congrArg Prod.fst hu)

/-- The generic shape of the non-contained branch of the merger loop: the
entry of K is replaced by a batch of entries that partition K, where the
entries keeping the old annotation list cover K minus the target and the
entries with the appended annotation cover exactly K intersected with the
target. -/
theorem else_generic (L : Int) (a : Nat) (T K : Range) (m : MergedMap) (as : List Nat)
    (ps : List (Range × List Nat))
    (hInv : Inv L m) (hget : dictGet m K = some as)
    (hT : 0 ≤ T.start ∧ T.start ≤ T.stop ∧ T.stop ≤ L)
    (hkeys : (ps.map Prod.fst).Nodup)
    (hne : ∀ q ∈ ps, q.1 ≠ K)
    (hvals : ∀ q ∈ ps, q.2 = as ∨ q.2 = as ++ [a])
    (hsub : ∀ q ∈ ps, ∀ p : Int, rmem q.1 p = true → rmem K p = true)
    (hOiff : ∀ q ∈ ps, q.2 = as ++ [a] →
      ∀ p : Int, rmem q.1 p = true ↔ (rmem K p = true ∧ rmem T p = true))
    (hOext : ∀ p : Int, rmem K p = true → rmem T p = true →
      ∃ q ∈ ps, q.2 = as ++ [a] ∧ rmem q.1 p = true)
    (hDext : ∀ p : Int, rmem K p = true → rmem T p = false →
      ∃ q ∈ ps, q.2 = as ∧ rmem q.1 p = true)
    (hwfq : ∀ q ∈ ps, 0 ≤ q.1.start ∧ q.1.start ≤ q.1.stop ∧ q.1.stop ≤ L)
    (hcnt : ∀ p : Int, (ps.map Prod.fst).countP (fun r => rmem r p) =
        if rmem K p then 1 else 0)
    (hpt : ∀ q ∈ ps, q.1.start = q.1.stop → (q.1.start = T.start ∧ T.start = T.stop)) :
    Inv L (dictPop (ps.foldl (fun acc q => dictSet acc q.1 q.2) m) K) ∧
    (∀ k', k' ∈ dictKeys m → k' ≠ K → T.has_overlapping_range k' = true →
      dictGet (dictPop (ps.foldl (fun acc q => dictSet acc q.1 q.2) m) K) k' =
        dictGet m k') ∧
    (∀ a' (p : Int),
      covered (dictPop (ps.foldl (fun acc q => dictSet acc q.1 q.2) m) K) a' p ↔
        (covered m a' p ∨ (a' = a ∧ rmem K p = true ∧ rmem T p = true))) := by
  have hKentry := mem_of_dictGet m K as hget
  obtain ⟨hnd, hwfm, hcount⟩ := hInv
  have hfresh : ∀ q ∈ ps, q.1 ∉ dictKeys m ∨ q.1.start = q.1.stop := by
    intro q hq
    rcases eq_or_lt_of_le (hwfq q hq).2.1 with hpt' | hproper
    · exact Or.inr hpt'
    · left
      have hrq : rmem q.1 q.1.start = true := (rmem_iff _ _).mpr ⟨le_refl _, hproper⟩
      exact fresh_of_shared L m ⟨hnd, hwfm, hcount⟩ K as hKentry q.1 q.1.start hrq
        (hsub q hq q.1.start hrq) (hne q hq)
  obtain ⟨r1, r2, r3⟩ := replace_entry_spec L m K as ps ⟨hnd, hwfm, hcount⟩ hget hkeys hne
    hfresh hwfq hcnt
  refine ⟨r1, ?_, ?_⟩
  · intro k' hk1 hk2 haffk
    refine r2 k' hk1 hk2 ?_
    intro hmemps
    rcases List.mem_map.mp hmemps with ⟨q, hq, hq1⟩
    rcases hfresh q hq with hf | hptq
    · exact hf (hq1 ▸ hk1)
    · obtain ⟨hqa, hTT⟩ := hpt q hq hptq
      have hk'wf : k'.start ≤ k'.stop := by
        obtain ⟨v, hv⟩ := (mem_dictKeys_iff m k').mp hk1
        exact (hwfm (k', v) hv).2.1
      rw [affected_iff T k' hT.2.1 hk'wf] at haffk
      have e1 : k'.start = k'.stop := hq1 ▸ hptq
      have e2 : k'.start = T.start := hq1 ▸ hqa
      rcases haffk with ⟨g1, g2, g3, g4⟩ | ⟨g1, g2, g3⟩ | ⟨g1, g2, g3⟩ <;> omega
  · intro a' p
    rw [r3 a' p]
    constructor
    · rintro (⟨q, hq, hr, ha⟩ | ⟨hcov, _⟩)
      · rcases hvals q hq with hD | hO
        · exact Or.inl ⟨(K, as), hKentry, hsub q hq p hr, hD ▸ ha⟩
        · rcases List.mem_append.mp (hO ▸ ha) with hin | hin
          · exact Or.inl ⟨(K, as), hKentry, hsub q hq p hr, hin⟩
          · right
            have hKT := (hOiff q hq hO p).mp hr
            exact ⟨List.mem_singleton.mp hin, hKT.1, hKT.2⟩
      · exact Or.inl hcov
    · rintro (⟨kv, hkvm, hr, ha⟩ | ⟨rfl, hrK, hrT⟩)
      · by_cases hrKp : rmem K p = true
        · have hu := unique_entry L m ⟨hnd, hwfm, hcount⟩ kv (K, as) p hkvm hKentry hr hrKp
          have ha' : a' ∈ as := by rw [hu] at ha; exact ha
          by_cases hrTp : rmem T p = true
          · obtain ⟨q, hq, hO, hrq⟩ := hOext p hrKp hrTp
            exact Or.inl ⟨q, hq, hrq, by rw [hO]; exact List.mem_append_left _ ha'⟩
          · obtain ⟨q, hq, hD, hrq⟩ := hDext p hrKp (Bool.eq_false_iff.mpr hrTp)
            exact Or.inl ⟨q, hq, hrq, by rw [hD]; exact ha'⟩
        · exact Or.inr ⟨⟨kv, hkvm, hr, ha⟩, Bool.eq_false_iff.mpr hrKp⟩
      · obtain ⟨q, hq, hO, hrq⟩ := hOext p hrK hrT
        exact Or.inl ⟨q, hq, hrq, by
          rw [hO]
          exact List.mem_append_right _ (List.mem_singleton.mpr rfl)⟩
theorem rmem_mk (a b p : Int) : rmem ⟨a, b⟩ p = true ↔ (a ≤ p ∧ p < b) :=
  rmem_iff ⟨a, b⟩ p

/-- Scenario S1 of the non-contained branch: the target splits the key in
two remainders around the overlap. -/
theorem processAffected_S1 (L : Int) (a : Nat) (T K : Range) (m : MergedMap)
    (as : List Nat)
    (hInv : Inv L m) (hget : dictGet m K = some as)
    (hT : 0 ≤ T.start ∧ T.start ≤ T.stop ∧ T.stop ≤ L)
    (hc : ¬ (K.is_in_between T = true))
    (hA : K.start < T.start) (hB : T.stop < K.stop) :
    ∃ m', processAffected a T m K = some m' ∧ Inv L m' ∧
      (∀ k', k' ∈ dictKeys m → k' ≠ K → T.has_overlapping_range k' = true →
        dictGet m' k' = dictGet m k') ∧
      (∀ a' (p : Int), covered m' a' p ↔
        (covered m a' p ∨ (a' = a ∧ rmem K p = true ∧ rmem T p = true))) := by
  have heval : processAffected a T m K = some (dictPop
      ([((⟨K.start, T.start⟩ : Range), as), ((⟨T.stop, K.stop⟩ : Range), as),
        ((⟨T.start, T.stop⟩ : Range), as ++ [a])].foldl
        (fun acc q => dictSet acc q.1 q.2) m) K) := by
    unfold processAffected
    rw [hget]
    simp only [Option.getD_some]
    rw [if_neg hc, overlap_S1 K T hT.2.1 hA hB, disjoint_S1 K T hT.2.1 hA hB]
    rfl
  have hKwf : 0 ≤ K.start ∧ K.start ≤ K.stop ∧ K.stop ≤ L :=
    hInv.2.1 (K, as) (mem_of_dictGet m K as hget)
  have hkeys : (([((⟨K.start, T.start⟩ : Range), as), ((⟨T.stop, K.stop⟩ : Range), as),
      ((⟨T.start, T.stop⟩ : Range), as ++ [a])]).map Prod.fst).Nodup := by
    simp only [List.map_cons, List.map_nil, List.nodup_cons, List.mem_cons,
      List.not_mem_nil, or_false, List.nodup_nil, and_true, Range.mk.injEq, not_or,
      not_false_eq_true]
    omega
  have hne : ∀ q ∈ [((⟨K.start, T.start⟩ : Range), as), ((⟨T.stop, K.stop⟩ : Range), as),
      ((⟨T.start, T.stop⟩ : Range), as ++ [a])], q.1 ≠ K := by
    intro q hq
    simp only [List.mem_cons, List.not_mem_nil, or_false] at hq
    rcases hq with rfl | rfl | rfl <;>
      (intro he
       have h1 := congrArg Range.start he
       have h2 := congrArg Range.stop he
       dsimp only at h1 h2
       omega)
  have hvals : ∀ q ∈ [((⟨K.start, T.start⟩ : Range), as), ((⟨T.stop, K.stop⟩ : Range), as),
      ((⟨T.start, T.stop⟩ : Range), as ++ [a])], q.2 = as ∨ q.2 = as ++ [a] := by
    intro q hq
    simp only [List.mem_cons, List.not_mem_nil, or_false] at hq
    rcases hq with rfl | rfl | rfl
    · exact Or.inl rfl
    · exact Or.inl rfl
    · exact Or.inr rfl
  have hsub : ∀ q ∈ [((⟨K.start, T.start⟩ : Range), as), ((⟨T.stop, K.stop⟩ : Range), as),
      ((⟨T.start, T.stop⟩ : Range), as ++ [a])], ∀ p : Int,
      rmem q.1 p = true → rmem K p = true := by
    intro q hq p hr
    simp only [List.mem_cons, List.not_mem_nil, or_false] at hq
    rcases hq with rfl | rfl | rfl <;>
      (simp only [rmem_iff] at hr ⊢; omega)
  have hOiff : ∀ q ∈ [((⟨K.start, T.start⟩ : Range), as), ((⟨T.stop, K.stop⟩ : Range), as),
      ((⟨T.start, T.stop⟩ : Range), as ++ [a])], q.2 = as ++ [a] →
      ∀ p : Int, rmem q.1 p = true ↔ (rmem K p = true ∧ rmem T p = true) := by
    intro q hq hO p
    simp only [List.mem_cons, List.not_mem_nil, or_false] at hq
    rcases hq with rfl | rfl | rfl
    · exact absurd hO (by simp)
    · exact absurd hO (by simp)
    · simp only [rmem_iff]
      omega
  have hOext : ∀ p : Int, rmem K p = true → rmem T p = true →
      ∃ q ∈ [((⟨K.start, T.start⟩ : Range), as), ((⟨T.stop, K.stop⟩ : Range), as),
        ((⟨T.start, T.stop⟩ : Range), as ++ [a])], q.2 = as ++ [a] ∧ rmem q.1 p = true := by
    intro p hKp hTp
    rw [rmem_iff] at hKp hTp
    refine ⟨((⟨T.start, T.stop⟩ : Range), as ++ [a]), ?_, rfl, ?_⟩
    · simp
    · simp only [rmem_iff]
      omega
  have hDext : ∀ p : Int, rmem K p = true → rmem T p = false →
      ∃ q ∈ [((⟨K.start, T.start⟩ : Range), as), ((⟨T.stop, K.stop⟩ : Range), as),
        ((⟨T.start, T.stop⟩ : Range), as ++ [a])], q.2 = as ∧ rmem q.1 p = true := by
    intro p hKp hTp
    rw [rmem_iff] at hKp
    have hTp' : ¬ (T.start ≤ p ∧ p < T.stop) :=
      fun h => (Bool.eq_false_iff.mp hTp) ((rmem_iff T p).mpr h)
    by_cases hlt : p < T.start
    · refine ⟨((⟨K.start, T.start⟩ : Range), as), ?_, rfl, ?_⟩
      · simp
      · simp only [rmem_iff]
        omega
    · refine ⟨((⟨T.stop, K.stop⟩ : Range), as), ?_, rfl, ?_⟩
      · simp
      · simp only [rmem_iff]
        omega
  have hwfq : ∀ q ∈ [((⟨K.start, T.start⟩ : Range), as), ((⟨T.stop, K.stop⟩ : Range), as),
      ((⟨T.start, T.stop⟩ : Range), as ++ [a])],
      0 ≤ q.1.start ∧ q.1.start ≤ q.1.stop ∧ q.1.stop ≤ L := by
    intro q hq
    simp only [List.mem_cons, List.not_mem_nil, or_false] at hq
    rcases hq with rfl | rfl | rfl <;>
      refine ⟨?_, ?_, ?_⟩ <;> dsimp only <;> omega
  have hcnt : ∀ p : Int,
      (([((⟨K.start, T.start⟩ : Range), as), ((⟨T.stop, K.stop⟩ : Range), as),
        ((⟨T.start, T.stop⟩ : Range), as ++ [a])]).map Prod.fst).countP
          (fun r => rmem r p) = if rmem K p then 1 else 0 := by
    intro p
    simp only [List.map_cons, List.map_nil, List.countP_cons, List.countP_nil, rmem_iff]
    split_ifs <;> omega
  have hpt : ∀ q ∈ [((⟨K.start, T.start⟩ : Range), as), ((⟨T.stop, K.stop⟩ : Range), as),
      ((⟨T.start, T.stop⟩ : Range), as ++ [a])], q.1.start = q.1.stop →
      (q.1.start = T.start ∧ T.start = T.stop) := by
    intro q hq hptq
    simp only [List.mem_cons, List.not_mem_nil, or_false] at hq
    rcases hq with rfl | rfl | rfl <;> dsimp only at hptq ⊢ <;> omega
  obtain ⟨g1, g2, g3⟩ := else_generic L a T K m as _ hInv hget hT hkeys hne hvals hsub
    hOiff hOext hDext hwfq hcnt hpt
  exact ⟨_, heval, g1, g2, g3⟩
/-- Scenario S2 of the non-contained branch: only the left remainder
survives. -/
theorem processAffected_S2 (L : Int) (a : Nat) (T K : Range) (m : MergedMap)
    (as : List Nat)
    (hInv : Inv L m) (hget : dictGet m K = some as)
    (hT : 0 ≤ T.start ∧ T.start ≤ T.stop ∧ T.stop ≤ L)
    (hc : ¬ (K.is_in_between T = true))
    (hA : K.start < T.start) (hB : T.start < K.stop) (hC : K.stop ≤ T.stop) :
    ∃ m', processAffected a T m K = some m' ∧ Inv L m' ∧
      (∀ k', k' ∈ dictKeys m → k' ≠ K → T.has_overlapping_range k' = true →
        dictGet m' k' = dictGet m k') ∧
      (∀ a' (p : Int), covered m' a' p ↔
        (covered m a' p ∨ (a' = a ∧ rmem K p = true ∧ rmem T p = true))) := by
  have heval : processAffected a T m K = some (dictPop
      ([((⟨K.start, T.start⟩ : Range), as),
        ((⟨T.start, K.stop⟩ : Range), as ++ [a])].foldl
        (fun acc q => dictSet acc q.1 q.2) m) K) := by
    unfold processAffected
    rw [hget]
    simp only [Option.getD_some]
    rw [if_neg hc, overlap_S2 K T hA hB hC, disjoint_S2 K T hA hB hC]
    rfl
  have hKwf : 0 ≤ K.start ∧ K.start ≤ K.stop ∧ K.stop ≤ L :=
    hInv.2.1 (K, as) (mem_of_dictGet m K as hget)
  have hkeys : (([((⟨K.start, T.start⟩ : Range), as),
      ((⟨T.start, K.stop⟩ : Range), as ++ [a])]).map Prod.fst).Nodup := by
    simp only [List.map_cons, List.map_nil, List.nodup_cons, List.mem_cons,
      List.not_mem_nil, or_false, List.nodup_nil, and_true, Range.mk.injEq, not_or,
      not_false_eq_true]
    omega
  have hne : ∀ q ∈ [((⟨K.start, T.start⟩ : Range), as),
      ((⟨T.start, K.stop⟩ : Range), as ++ [a])], q.1 ≠ K := by
    intro q hq
    simp only [List.mem_cons, List.not_mem_nil, or_false] at hq
    rcases hq with rfl | rfl <;>
      (intro he
       have h1 := congrArg Range.start he
       have h2 := congrArg Range.stop he
       dsimp only at h1 h2
       omega)
  have hvals : ∀ q ∈ [((⟨K.start, T.start⟩ : Range), as),
      ((⟨T.start, K.stop⟩ : Range), as ++ [a])], q.2 = as ∨ q.2 = as ++ [a] := by
    intro q hq
    simp only [List.mem_cons, List.not_mem_nil, or_false] at hq
    rcases hq with rfl | rfl
    · exact Or.inl rfl
    · exact Or.inr rfl
  have hsub : ∀ q ∈ [((⟨K.start, T.start⟩ : Range), as),
      ((⟨T.start, K.stop⟩ : Range), as ++ [a])], ∀ p : Int,
      rmem q.1 p = true → rmem K p = true := by
    intro q hq p hr
    simp only [List.mem_cons, List.not_mem_nil, or_false] at hq
    rcases hq with rfl | rfl <;>
      (simp only [rmem_iff] at hr ⊢; omega)
  have hOiff : ∀ q ∈ [((⟨K.start, T.start⟩ : Range), as),
      ((⟨T.start, K.stop⟩ : Range), as ++ [a])], q.2 = as ++ [a] →
      ∀ p : Int, rmem q.1 p = true ↔ (rmem K p = true ∧ rmem T p = true) := by
    intro q hq hO p
    simp only [List.mem_cons, List.not_mem_nil, or_false] at hq
    rcases hq with rfl | rfl
    · exact absurd hO (by simp)
    · simp only [rmem_iff]
      omega
  have hOext : ∀ p : Int, rmem K p = true → rmem T p = true →
      ∃ q ∈ [((⟨K.start, T.start⟩ : Range), as),
        ((⟨T.start, K.stop⟩ : Range), as ++ [a])], q.2 = as ++ [a] ∧ rmem q.1 p = true := by
    intro p hKp hTp
    rw [rmem_iff] at hKp hTp
    refine ⟨((⟨T.start, K.stop⟩ : Range), as ++ [a]), ?_, rfl, ?_⟩
    · simp
    · simp only [rmem_iff]
      omega
  have hDext : ∀ p : Int, rmem K p = true → rmem T p = false →
      ∃ q ∈ [((⟨K.start, T.start⟩ : Range), as),
        ((⟨T.start, K.stop⟩ : Range), as ++ [a])], q.2 = as ∧ rmem q.1 p = true := by
    intro p hKp hTp
    rw [rmem_iff] at hKp
    have hTp' : ¬ (T.start ≤ p ∧ p < T.stop) :=
      fun h => (Bool.eq_false_iff.mp hTp) ((rmem_iff T p).mpr h)
    refine ⟨((⟨K.start, T.start⟩ : Range), as), ?_, rfl, ?_⟩
    · simp
    · simp only [rmem_iff]
      omega
  have hwfq : ∀ q ∈ [((⟨K.start, T.start⟩ : Range), as),
      ((⟨T.start, K.stop⟩ : Range), as ++ [a])],
      0 ≤ q.1.start ∧ q.1.start ≤ q.1.stop ∧ q.1.stop ≤ L := by
    intro q hq
    simp only [List.mem_cons, List.not_mem_nil, or_false] at hq
    rcases hq with rfl | rfl <;>
      refine ⟨?_, ?_, ?_⟩ <;> dsimp only <;> omega
  have hcnt : ∀ p : Int,
      (([((⟨K.start, T.start⟩ : Range), as),
        ((⟨T.start, K.stop⟩ : Range), as ++ [a])]).map Prod.fst).countP
          (fun r => rmem r p) = if rmem K p then 1 else 0 := by
    intro p
    simp only [List.map_cons, List.map_nil, List.countP_cons, List.countP_nil, rmem_iff]
    split_ifs <;> omega
  have hpt : ∀ q ∈ [((⟨K.start, T.start⟩ : Range), as),
      ((⟨T.start, K.stop⟩ : Range), as ++ [a])], q.1.start = q.1.stop →
      (q.1.start = T.start ∧ T.start = T.stop) := by
    intro q hq hptq
    simp only [List.mem_cons, List.not_mem_nil, or_false] at hq
    rcases hq with rfl | rfl <;> dsimp only at hptq ⊢ <;> omega
  obtain ⟨g1, g2, g3⟩ := else_generic L a T K m as _ hInv hget hT hkeys hne hvals hsub
    hOiff hOext hDext hwfq hcnt hpt
  exact ⟨_, heval, g1, g2, g3⟩

/-- Scenario S3 of the non-contained branch: only the right remainder
survives. -/
theorem processAffected_S3 (L : Int) (a : Nat) (T K : Range) (m : MergedMap)
    (as : List Nat)
    (hInv : Inv L m) (hget : dictGet m K = some as)
    (hT : 0 ≤ T.start ∧ T.start ≤ T.stop ∧ T.stop ≤ L)
    (hc : ¬ (K.is_in_between T = true))
    (hA : T.start ≤ K.start) (hB : K.start < T.stop) (hC : T.stop < K.stop) :
    ∃ m', processAffected a T m K = some m' ∧ Inv L m' ∧
      (∀ k', k' ∈ dictKeys m → k' ≠ K → T.has_overlapping_range k' = true →
        dictGet m' k' = dictGet m k') ∧
      (∀ a' (p : Int), covered m' a' p ↔
        (covered m a' p ∨ (a' = a ∧ rmem K p = true ∧ rmem T p = true))) := by
  have heval : processAffected a T m K = some (dictPop
      ([((⟨T.stop, K.stop⟩ : Range), as),
        ((⟨K.start, T.stop⟩ : Range), as ++ [a])].foldl
        (fun acc q => dictSet acc q.1 q.2) m) K) := by
    unfold processAffected
    rw [hget]
    simp only [Option.getD_some]
    rw [if_neg hc, overlap_S3 K T hA hB hC, disjoint_S3 K T hA hB hC]
    rfl
  have hKwf : 0 ≤ K.start ∧ K.start ≤ K.stop ∧ K.stop ≤ L :=
    hInv.2.1 (K, as) (mem_of_dictGet m K as hget)
  have hkeys : (([((⟨T.stop, K.stop⟩ : Range), as),
      ((⟨K.start, T.stop⟩ : Range), as ++ [a])]).map Prod.fst).Nodup := by
    simp only [List.map_cons, List.map_nil, List.nodup_cons, List.mem_cons,
      List.not_mem_nil, or_false, List.nodup_nil, and_true, Range.mk.injEq, not_or,
      not_false_eq_true]
    omega
  have hne : ∀ q ∈ [((⟨T.stop, K.stop⟩ : Range), as),
      ((⟨K.start, T.stop⟩ : Range), as ++ [a])], q.1 ≠ K := by
    intro q hq
    simp only [List.mem_cons, List.not_mem_nil, or_false] at hq
    rcases hq with rfl | rfl <;>
      (intro he
       have h1 := congrArg Range.start he
       have h2 := congrArg Range.stop he
       dsimp only at h1 h2
       omega)
  have hvals : ∀ q ∈ [((⟨T.stop, K.stop⟩ : Range), as),
      ((⟨K.start, T.stop⟩ : Range), as ++ [a])], q.2 = as ∨ q.2 = as ++ [a] := by
    intro q hq
    simp only [List.mem_cons, List.not_mem_nil, or_false] at hq
    rcases hq with rfl | rfl
    · exact Or.inl rfl
    · exact Or.inr rfl
  have hsub : ∀ q ∈ [((⟨T.stop, K.stop⟩ : Range), as),
      ((⟨K.start, T.stop⟩ : Range), as ++ [a])], ∀ p : Int,
      rmem q.1 p = true → rmem K p = true := by
    intro q hq p hr
    simp only [List.mem_cons, List.not_mem_nil, or_false] at hq
    rcases hq with rfl | rfl <;>
      (simp only [rmem_iff] at hr ⊢; omega)
  have hOiff : ∀ q ∈ [((⟨T.stop, K.stop⟩ : Range), as),
      ((⟨K.start, T.stop⟩ : Range), as ++ [a])], q.2 = as ++ [a] →
      ∀ p : Int, rmem q.1 p = true ↔ (rmem K p = true ∧ rmem T p = true) := by
    intro q hq hO p
    simp only [List.mem_cons, List.not_mem_nil, or_false] at hq
    rcases hq with rfl | rfl
    · exact absurd hO (by simp)
    · simp only [rmem_iff]
      omega
  have hOext : ∀ p : Int, rmem K p = true → rmem T p = true →
      ∃ q ∈ [((⟨T.stop, K.stop⟩ : Range), as),
        ((⟨K.start, T.stop⟩ : Range), as ++ [a])], q.2 = as ++ [a] ∧ rmem q.1 p = true := by
    intro p hKp hTp
    rw [rmem_iff] at hKp hTp
    refine ⟨((⟨K.start, T.stop⟩ : Range), as ++ [a]), ?_, rfl, ?_⟩
    · simp
    · simp only [rmem_iff]
      omega
  have hDext : ∀ p : Int, rmem K p = true → rmem T p = false →
      ∃ q ∈ [((⟨T.stop, K.stop⟩ : Range), as),
        ((⟨K.start, T.stop⟩ : Range), as ++ [a])], q.2 = as ∧ rmem q.1 p = true := by
    intro p hKp hTp
    rw [rmem_iff] at hKp
    have hTp' : ¬ (T.start ≤ p ∧ p < T.stop) :=
      fun h => (Bool.eq_false_iff.mp hTp) ((rmem_iff T p).mpr h)
    refine ⟨((⟨T.stop, K.stop⟩ : Range), as), ?_, rfl, ?_⟩
    · simp
    · simp only [rmem_iff]
      omega
  have hwfq : ∀ q ∈ [((⟨T.stop, K.stop⟩ : Range), as),
      ((⟨K.start, T.stop⟩ : Range), as ++ [a])],
      0 ≤ q.1.start ∧ q.1.start ≤ q.1.stop ∧ q.1.stop ≤ L := by
    intro q hq
    simp only [List.mem_cons, List.not_mem_nil, or_false] at hq
    rcases hq with rfl | rfl <;>
      refine ⟨?_, ?_, ?_⟩ <;> dsimp only <;> omega
  have hcnt : ∀ p : Int,
      (([((⟨T.stop, K.stop⟩ : Range), as),
        ((⟨K.start, T.stop⟩ : Range), as ++ [a])]).map Prod.fst).countP
          (fun r => rmem r p) = if rmem K p then 1 else 0 := by
    intro p
    simp only [List.map_cons, List.map_nil, List.countP_cons, List.countP_nil, rmem_iff]
    split_ifs <;> omega
  have hpt : ∀ q ∈ [((⟨T.stop, K.stop⟩ : Range), as),
      ((⟨K.start, T.stop⟩ : Range), as ++ [a])], q.1.start = q.1.stop →
      (q.1.start = T.start ∧ T.start = T.stop) := by
    intro q hq hptq
    simp only [List.mem_cons, List.not_mem_nil, or_false] at hq
    rcases hq with rfl | rfl <;> dsimp only at hptq ⊢ <;> omega
  obtain ⟨g1, g2, g3⟩ := else_generic L a T K m as _ hInv hget hT hkeys hne hvals hsub
    hOiff hOext hDext hwfq hcnt hpt
  exact ⟨_, heval, g1, g2, g3⟩
/-- The inner loop body of the merger preserves the invariant, leaves the
other affected keys untouched, and extends coverage by the points of the
processed key that lie inside the target. -/
theorem processAffected_spec (L : Int) (a : Nat) (T K : Range) (m : MergedMap)
    (hInv : Inv L m)
    (hT : 0 ≤ T.start ∧ T.start ≤ T.stop ∧ T.stop ≤ L)
    (hK : K ∈ dictKeys m)
    (haff : T.has_overlapping_range K = true) :
    ∃ m', processAffected a T m K = some m' ∧ Inv L m' ∧
      (∀ k', k' ∈ dictKeys m → k' ≠ K → T.has_overlapping_range k' = true →
        dictGet m' k' = dictGet m k') ∧
      (∀ a' (p : Int), covered m' a' p ↔
        (covered m a' p ∨ (a' = a ∧ rmem K p = true ∧ rmem T p = true))) := by
  obtain ⟨as, hget⟩ : ∃ as, dictGet m K = some as := by
    rcases hh : dictGet m K with _ | as
    · rw [dictGet_eq_none_iff] at hh
      exact absurd hK hh
    · exact ⟨as, rfl⟩
  have hKentry := mem_of_dictGet m K as hget
  have hKwf : 0 ≤ K.start ∧ K.start ≤ K.stop ∧ K.stop ≤ L := hInv.2.1 (K, as) hKentry
  by_cases hc : K.is_in_between T = true
  · -- the contained branch: append the annotation to the key in place
    have hcon : ∀ p : Int, rmem K p = true → rmem T p = true := by
      rw [is_in_between_iff] at hc
      intro p hp
      rw [rmem_iff] at hp ⊢
      omega
    obtain ⟨hnd, hwfm, hcount⟩ := hInv
    refine ⟨dictSet m K (as ++ [a]), ?_, ?_, ?_, ?_⟩
    · unfold processAffected
      rw [hget]
      simp only [Option.getD_some]
      rw [if_pos hc]
    · refine ⟨nodup_dictKeys_dictSet m K _ hnd, ?_, ?_⟩
      · intro kv hkv
        rcases (mem_dictSet_iff m K _ hnd kv).mp hkv with rfl | ⟨hkvm, _⟩
        · exact hKwf
        · exact hwfm kv hkvm
      · intro p
        rw [keyCount_dictSet_mem m K _ hK]
        exact hcount p
    · intro k' _ hk2 _
      rw [dictGet_dictSet, if_neg (fun he => hk2 he.symm)]
    · intro a' p
      constructor
      · rintro ⟨kv, hkv, hr, ha⟩
        rcases (mem_dictSet_iff m K _ hnd kv).mp hkv with rfl | ⟨hkvm, _⟩
        · rcases List.mem_append.mp ha with hin | hin
          · exact Or.inl ⟨(K, as), hKentry, hr, hin⟩
          · exact Or.inr ⟨List.mem_singleton.mp hin, hr, hcon p hr⟩
        · exact Or.inl ⟨kv, hkvm, hr, ha⟩
      · rintro (⟨kv, hkvm, hr, ha⟩ | ⟨hEq, hrK, hrT⟩)
        · by_cases hk : kv.1 = K
          · have hgv := dictGet_of_mem m kv hnd hkvm
            rw [hk, hget] at hgv
            have has : as = kv.2 := Option.some.inj hgv
            refine ⟨(K, as ++ [a]), (mem_dictSet_iff m K _ hnd _).mpr (Or.inl rfl),
              hk ▸ hr, ?_⟩
            exact List.mem_append_left _ (has ▸ ha)
          · exact ⟨kv, (mem_dictSet_iff m K _ hnd kv).mpr (Or.inr ⟨hkvm, hk⟩), hr, ha⟩
        · refine ⟨(K, as ++ [a]), (mem_dictSet_iff m K _ hnd _).mpr (Or.inl rfl), hrK, ?_⟩
          rw [hEq]
          exact List.mem_append_right _ (List.mem_singleton.mpr rfl)
  · -- the non-contained branch: dispatch on the three geometric scenarios
    have hncon : ¬ (T.start ≤ K.start ∧ K.stop ≤ T.stop) := by
      rw [is_in_between_iff] at hc
      exact hc
    rw [affected_iff T K hT.2.1 hKwf.2.1] at haff
    have hS : (K.start < T.start ∧ T.stop < K.stop) ∨
        (K.start < T.start ∧ T.start < K.stop ∧ K.stop ≤ T.stop) ∨
        (T.start ≤ K.start ∧ K.start < T.stop ∧ T.stop < K.stop) := by
      rcases haff with h | h | h <;> omega
    rcases hS with ⟨hA, hB⟩ | ⟨hA, hB, hC⟩ | ⟨hA, hB, hC⟩
    · exact processAffected_S1 L a T K m as hInv hget hT hc hA hB
    · exact processAffected_S2 L a T K m as hInv hget hT hc hA hB hC
    · exact processAffected_S3 L a T K m as hInv hget hT hc hA hB hC
/-- Folding the inner loop over the list of affected keys. -/
theorem foldAffected_spec (L : Int) (a : Nat) (T : Range)
    (hT : 0 ≤ T.start ∧ T.start ≤ T.stop ∧ T.stop ≤ L) :
    ∀ (ks : List Range) (m : MergedMap), Inv L m → ks.Nodup →
    (∀ K ∈ ks, K ∈ dictKeys m ∧ T.has_overlapping_range K = true) →
    ∃ m', ks.foldlM (processAffected a T) m = some m' ∧ Inv L m' ∧
      (∀ a' (p : Int), covered m' a' p ↔
        (covered m a' p ∨ (a' = a ∧ rmem T p = true ∧ ∃ K ∈ ks, rmem K p = true))) := by
  intro ks
  induction ks with
  | nil =>
    intro m hInv _ _
    refine ⟨m, rfl, hInv, ?_⟩
    intro a' p
    simp
  | cons K ks' ih =>
    intro m hInv hnd hks
    obtain ⟨hKmem, hKaff⟩ := hks K (List.mem_cons_self _ _)
    obtain ⟨m1, he1, hInv1, hpres, hcov1⟩ :=
      processAffected_spec L a T K m hInv hT hKmem hKaff
    have hks' : ∀ K' ∈ ks', K' ∈ dictKeys m1 ∧ T.has_overlapping_range K' = true := by
      intro K' hK'
      obtain ⟨hmem', haff'⟩ := hks K' (List.mem_cons_of_mem _ hK')
      have hneK : K' ≠ K := by
        rintro rfl
        exact (List.nodup_cons.mp hnd).1 hK'
      have hget' := hpres K' hmem' hneK haff'
      refine ⟨?_, haff'⟩
      rw [← dictGet_isSome_iff, hget', dictGet_isSome_iff]
      exact hmem'
    obtain ⟨m', he2, hInv2, hcov2⟩ := ih m1 hInv1 (List.nodup_cons.mp hnd).2 hks'
    refine ⟨m', ?_, hInv2, ?_⟩
    · rw [List.foldlM_cons, he1]
      exact he2
    · intro a' p
      rw [hcov2, hcov1]
      constructor
      · rintro ((hcov | ⟨hEq, hrK, hrT⟩) | ⟨hEq, hrT, K', hK', hrK'⟩)
        · exact Or.inl hcov
        · exact Or.inr ⟨hEq, hrT, K, List.mem_cons_self _ _, hrK⟩
        · exact Or.inr ⟨hEq, hrT, K', List.mem_cons_of_mem _ hK', hrK'⟩
      · rintro (hcov | ⟨hEq, hrT, K', hK', hrK'⟩)
        · exact Or.inl (Or.inl hcov)
        · rcases List.mem_cons.mp hK' with rfl | hK''
          · exact Or.inl (Or.inr ⟨hEq, hrK', hrT⟩)
          · exact Or.inr ⟨hEq, hrT, K', hK'', hrK'⟩

/-- Processing one target range of one annotation extends coverage by the
points of that range and preserves the invariant. -/
theorem processTarget_spec (L : Int) (a : Nat) (T : Range) (m : MergedMap)
    (hInv : Inv L m)
    (hT : 0 ≤ T.start ∧ T.start ≤ T.stop ∧ T.stop ≤ L) :
    ∃ m', processTarget a T m = some m' ∧ Inv L m' ∧
      (∀ a' (p : Int), covered m' a' p ↔
        (covered m a' p ∨ (a' = a ∧ rmem T p = true))) := by
  have hnd : (T.get_overlapping_ranges (dictKeys m)).Nodup := by
    unfold Range.get_overlapping_ranges
    exact hInv.1.filter _
  have hks : ∀ K ∈ T.get_overlapping_ranges (dictKeys m),
      K ∈ dictKeys m ∧ T.has_overlapping_range K = true := by
    intro K hK
    unfold Range.get_overlapping_ranges at hK
    exact ⟨(List.mem_filter.mp hK).1, (List.mem_filter.mp hK).2⟩
  obtain ⟨m', he, hInv', hcov⟩ :=
    foldAffected_spec L a T hT (T.get_overlapping_ranges (dictKeys m)) m hInv hnd hks
  refine ⟨m', he, hInv', ?_⟩
  intro a' p
  rw [hcov]
  constructor
  · rintro (hcov' | ⟨hEq, hrT, _⟩)
    · exact Or.inl hcov'
    · exact Or.inr ⟨hEq, hrT⟩
  · rintro (hcov' | ⟨hEq, hrT⟩)
    · exact Or.inl hcov'
    · right
      refine ⟨hEq, hrT, ?_⟩
      have hp : 0 ≤ p ∧ p < L := by
        rw [rmem_iff] at hrT
        omega
      obtain ⟨kv, hkv, hq⟩ := exists_entry L m hInv p hp
      refine ⟨kv.1, ?_, hq⟩
      unfold Range.get_overlapping_ranges
      rw [List.mem_filter]
      refine ⟨(mem_dictKeys_iff m kv.1).mpr ⟨kv.2, hkv⟩, ?_⟩
      have hwfe := hInv.2.1 kv hkv
      rw [affected_iff T kv.1 hT.2.1 hwfe.2.1]
      rw [rmem_iff] at hrT hq
      left
      omega

/-- Folding target processing over the ranges of one annotation. -/
theorem foldRanges_spec (L : Int) (a : Nat) :
    ∀ (rs : List Range) (m : MergedMap), Inv L m →
    (∀ r ∈ rs, 0 ≤ r.start ∧ r.start ≤ r.stop ∧ r.stop ≤ L) →
    ∃ m', rs.foldlM (fun acc r => processTarget a r acc) m = some m' ∧ Inv L m' ∧
      (∀ a' (p : Int), covered m' a' p ↔
        (covered m a' p ∨ (a' = a ∧ ∃ r ∈ rs, rmem r p = true))) := by
  intro rs
  induction rs with
  | nil =>
    intro m hInv _
    refine ⟨m, rfl, hInv, ?_⟩
    intro a' p
    simp
  | cons r rs' ih =>
    intro m hInv hwf
    obtain ⟨m1, he1, hInv1, hcov1⟩ :=
      processTarget_spec L a r m hInv (hwf r (List.mem_cons_self _ _))
    obtain ⟨m', he2, hInv2, hcov2⟩ :=
      ih m1 hInv1 (fun r' hr' => hwf r' (List.mem_cons_of_mem _ hr'))
    refine ⟨m', ?_, hInv2, ?_⟩
    · rw [List.foldlM_cons, he1]
      exact he2
    · intro a' p
      rw [hcov2, hcov1]
      constructor
      · rintro ((hcov | ⟨hEq, hr⟩) | ⟨hEq, r', hr', hq⟩)
        · exact Or.inl hcov
        · exact Or.inr ⟨hEq, r, List.mem_cons_self _ _, hr⟩
        · exact Or.inr ⟨hEq, r', List.mem_cons_of_mem _ hr', hq⟩
      · rintro (hcov | ⟨hEq, r', hr', hq⟩)
        · exact Or.inl (Or.inl hcov)
        · rcases List.mem_cons.mp hr' with rfl | hr''
          · exact Or.inl (Or.inr ⟨hEq, hq⟩)
          · exact Or.inr ⟨hEq, r', hr'', hq⟩

/-- Folding annotation processing over the list of annotations. -/
theorem foldAnnos_spec (L : Int) :
    ∀ (annos : List Anno) (m : MergedMap), Inv L m →
    (∀ anno ∈ annos, ∀ r ∈ anno.ranges, 0 ≤ r.start ∧ r.start ≤ r.stop ∧ r.stop ≤ L) →
    ∃ m', annos.foldlM processAnno m = some m' ∧ Inv L m' ∧
      (∀ a' (p : Int), covered m' a' p ↔
        (covered m a' p ∨
          ∃ anno ∈ annos, anno.id = a' ∧ ∃ r ∈ anno.ranges, rmem r p = true)) := by
  intro annos
  induction annos with
  | nil =>
    intro m hInv _
    refine ⟨m, rfl, hInv, ?_⟩
    intro a' p
    simp
  | cons anno annos' ih =>
    intro m hInv hwf
    obtain ⟨m1, he1, hInv1, hcov1⟩ :=
      foldRanges_spec L anno.id anno.ranges m hInv (hwf anno (List.mem_cons_self _ _))
    obtain ⟨m', he2, hInv2, hcov2⟩ :=
      ih m1 hInv1 (fun a' ha' => hwf a' (List.mem_cons_of_mem _ ha'))
    refine ⟨m', ?_, hInv2, ?_⟩
    · rw [List.foldlM_cons]
      have he1' : processAnno m anno = some m1 := he1
      rw [he1']
      exact he2
    · intro a' p
      rw [hcov2, hcov1]
      constructor
      · rintro ((hcov | ⟨hEq, r, hr, hq⟩) | ⟨anno', hanno', hid, r, hr, hq⟩)
        · exact Or.inl hcov
        · exact Or.inr ⟨anno, List.mem_cons_self _ _, hEq.symm, r, hr, hq⟩
        · exact Or.inr ⟨anno', List.mem_cons_of_mem _ hanno', hid, r, hr, hq⟩
      · rintro (hcov | ⟨anno', hanno', hid, r, hr, hq⟩)
        · exact Or.inl (Or.inl hcov)
        · rcases List.mem_cons.mp hanno' with rfl | hanno''
          · exact Or.inl (Or.inr ⟨hid.symm, r, hr, hq⟩)
          · exact Or.inr ⟨anno', hanno'', hid, r, hr, hq⟩
/-- C1: For every text length L at least 0 and every list of annotations
whose ranges all lie within [0, L), the mapping returned by
TEIAnnotationWriter.merge_ranges has keys that are pairwise disjoint ranges
whose union is [0, L), and for every input annotation A the union of the
keys whose annotation list contains A equals the union of A's ranges. -/
theorem merge_ranges_partition (L : Int) (annos : List Anno)
    (hL : 0 ≤ L)
    (hwf : ∀ anno ∈ annos, ∀ r ∈ anno.ranges,
      0 ≤ r.start ∧ r.start ≤ r.stop ∧ r.stop ≤ L)
    (hids : (annos.map Anno.id).Nodup) :
    ∃ m, TEIAnnotationWriter.merge_ranges L annos = some m ∧
      (∀ kv1 ∈ m, ∀ kv2 ∈ m, kv1.1 ≠ kv2.1 →
        ∀ p : Int, ¬(rmem kv1.1 p = true ∧ rmem kv2.1 p = true)) ∧
      (∀ p : Int, (∃ kv ∈ m, rmem kv.1 p = true) ↔ (0 ≤ p ∧ p < L)) ∧
      (∀ anno ∈ annos, ∀ p : Int,
        (∃ kv ∈ m, rmem kv.1 p = true ∧ anno.id ∈ kv.2) ↔
        (∃ r ∈ anno.ranges, rmem r p = true)) := by
  have hInv0 : Inv L [((⟨0, L⟩ : Range), ([] : List Nat))] := by
    refine ⟨by simp [dictKeys], ?_, ?_⟩
    · intro kv hkv
      rcases List.mem_singleton.mp hkv with rfl
      refine ⟨?_, ?_, ?_⟩ <;> dsimp only <;> omega
    · intro p
      unfold keyCount dictKeys
      simp only [List.map_cons, List.map_nil, List.countP_cons, List.countP_nil, rmem_iff]
      split_ifs <;> omega
  obtain ⟨m, he, hInv, hcov⟩ :=
    foldAnnos_spec L annos [((⟨0, L⟩ : Range), ([] : List Nat))] hInv0 hwf
  have hcov0 : ∀ a' (p : Int), ¬ covered [((⟨0, L⟩ : Range), ([] : List Nat))] a' p := by
    rintro a' p ⟨kv, hkv, _, ha⟩
    rcases List.mem_singleton.mp hkv with rfl
    exact absurd ha (List.not_mem_nil a')
  refine ⟨m, he, ?_, ?_, ?_⟩
  · intro kv1 h1 kv2 h2 hne p hpq
    exact hne (congrArg Prod.fst (unique_entry L m hInv kv1 kv2 p h1 h2 hpq.1 hpq.2))
  · intro p
    constructor
    · rintro ⟨kv, hkv, hq⟩
      have hwfe := hInv.2.1 kv hkv
      rw [rmem_iff] at hq
      omega
    · intro hp
      obtain ⟨kv, hkv, hq⟩ := exists_entry L m hInv p hp
      exact ⟨kv, hkv, hq⟩
  · intro anno hanno p
    have hthis := hcov anno.id p
    constructor
    · intro hl
      rcases hthis.mp hl with hcov0' | ⟨anno', hanno', hid, r, hr, hq⟩
      · exact absurd hcov0' (hcov0 _ _)
      · have heq : anno' = anno :=
          List.inj_on_of_nodup_map hids hanno' hanno hid
        rw [heq] at hr
        exact ⟨r, hr, hq⟩
    · rintro ⟨r, hr, hq⟩
      exact hthis.mpr (Or.inr ⟨anno, hanno, rfl, r, hr, hq⟩)

/-- C1 witness: the partition theorem applied to the concrete inputs of the
single-text example. -/
theorem merge_ranges_partition_witness :
    ∃ m, TEIAnnotationWriter.merge_ranges 10 [⟨0, [⟨2, 5⟩]⟩, ⟨1, [⟨4, 8⟩]⟩] = some m ∧
      (∀ kv1 ∈ m, ∀ kv2 ∈ m, kv1.1 ≠ kv2.1 →
        ∀ p : Int, ¬(rmem kv1.1 p = true ∧ rmem kv2.1 p = true)) ∧
      (∀ p : Int, (∃ kv ∈ m, rmem kv.1 p = true) ↔ (0 ≤ p ∧ p < 10)) ∧
      (∀ anno ∈ [(⟨0, [⟨2, 5⟩]⟩ : Anno), ⟨1, [⟨4, 8⟩]⟩], ∀ p : Int,
        (∃ kv ∈ m, rmem kv.1 p = true ∧ anno.id ∈ kv.2) ↔
        (∃ r ∈ anno.ranges, rmem r p = true)) :=
  merge_ranges_partition 10 [⟨0, [⟨2, 5⟩]⟩, ⟨1, [⟨4, 8⟩]⟩] (by decide)
    (by decide) (by decide)
/-! ### The writer emits its anchors sorted -/

theorem processAffected_nodup (a : Nat) (T K : Range) (m m' : MergedMap)
    (he : processAffected a T m K = some m')
    (hnd : (dictKeys m).Nodup) : (dictKeys m').Nodup := by
  unfold processAffected at he
  split_ifs at he with hc
  · obtain rfl : _ = m' := Option.some.inj he
    exact nodup_dictKeys_dictSet _ _ _ hnd
  · rcases ho : K.get_overlapping_range T with _ | O <;> rw [ho] at he
    · exact Option.noConfusion he
    · rcases hd : K.get_disjoint_ranges T with _ | ⟨d0, rest⟩ <;> rw [hd] at he
      · exact Option.noConfusion he
      · rcases rest with _ | ⟨d1, rest'⟩ <;>
          (obtain rfl : _ = m' := Option.some.inj he
           apply nodup_dictKeys_dictPop
           apply nodup_dictKeys_dictSet)
        · exact nodup_dictKeys_dictSet _ _ _ hnd
        · exact nodup_dictKeys_dictSet _ _ _ (nodup_dictKeys_dictSet _ _ _ hnd)

theorem foldlM_nodup {α : Type} (f : MergedMap → α → Option MergedMap)
    (hf : ∀ m x m', f m x = some m' → (dictKeys m).Nodup → (dictKeys m').Nodup) :
    ∀ (l : List α) (m m' : MergedMap), l.foldlM f m = some m' →
      (dictKeys m).Nodup → (dictKeys m').Nodup := by
  intro l
  induction l with
  | nil =>
    intro m m' he hnd
    obtain rfl : m = m' := Option.some.inj he
    exact hnd
  | cons x l ih =>
    intro m m' he hnd
    rw [List.foldlM_cons] at he
    rcases hfx : f m x with _ | m1 <;> rw [hfx] at he
    · exact Option.noConfusion he
    · exact ih m1 m' he (hf m x m1 hfx hnd)

theorem processTarget_nodup (a : Nat) (T : Range) (m m' : MergedMap)
    (he : processTarget a T m = some m')
    (hnd : (dictKeys m).Nodup) : (dictKeys m').Nodup :=
  foldlM_nodup (processAffected a T) (fun mm K mm' hee hh => processAffected_nodup a T K mm mm' hee hh)
    _ m m' he hnd

theorem processAnno_nodup (anno : Anno) (m m' : MergedMap)
    (he : processAnno m anno = some m')
    (hnd : (dictKeys m).Nodup) : (dictKeys m').Nodup :=
  foldlM_nodup (fun acc r => processTarget anno.id r acc)
    (fun mm r mm' hee hh => processTarget_nodup anno.id r mm mm' hee hh)
    anno.ranges m m' he hnd

theorem merge_ranges_nodup (L : Int) (annos : List Anno) (m : MergedMap)
    (he : TEIAnnotationWriter.merge_ranges L annos = some m) :
    (dictKeys m).Nodup :=
  foldlM_nodup processAnno (fun mm anno mm' hee hh => processAnno_nodup anno mm mm' hee hh)
    annos [(⟨0, L⟩, [])] m he (by simp [dictKeys])

theorem lt_iff_lex (a b : Range) :
    Range.lt a b = true ↔ (a.start < b.start ∨ (a.start = b.start ∧ a.stop < b.stop)) := by
  unfold Range.lt
  split_ifs <;>
    simp only [eq_self_iff_true, true_iff, decide_eq_true_eq, Bool.false_eq_true,
      false_iff] <;>
    omega

theorem mem_insertSorted (x z : Range) (l : List Range) :
    z ∈ insertSorted x l ↔ (z = x ∨ z ∈ l) := by
  induction l with
  | nil => simp [insertSorted]
  | cons y ys ih =>
    unfold insertSorted
    split_ifs
    · simp only [List.mem_cons]
    · simp only [List.mem_cons, ih]
      tauto

/-- The insertion step keeps the list weakly sorted: no later element is
strictly below an earlier one. -/
theorem insertSorted_pairwise (x : Range) (l : List Range)
    (h : List.Pairwise (fun u v => Range.lt v u = false) l) :
    List.Pairwise (fun u v => Range.lt v u = false) (insertSorted x l) := by
  induction l with
  | nil => simp [insertSorted]
  | cons y ys ih =>
    rw [List.pairwise_cons] at h
    unfold insertSorted
    split_ifs with hlt
    · rw [List.pairwise_cons]
      refine ⟨?_, List.pairwise_cons.mpr h⟩
      intro z hz
      rcases List.mem_cons.mp hz with rfl | hz'
      · rw [Bool.eq_false_iff]
        intro hzx
        rw [lt_iff_lex] at hlt hzx
        omega
      · have hyz := h.1 z hz'
        simp only [Bool.eq_false_iff, ne_eq, lt_iff_lex] at hyz
        rw [Bool.eq_false_iff]
        intro hzx
        rw [lt_iff_lex] at hlt hzx
        omega
    · rw [List.pairwise_cons]
      refine ⟨?_, ih h.2⟩
      intro z hz
      rcases (mem_insertSorted x z ys).mp hz with rfl | hz'
      · rw [Bool.eq_false_iff]
        exact hlt
      · exact h.1 z hz'

theorem sortRanges_pairwise (l : List Range) :
    List.Pairwise (fun u v => Range.lt v u = false) (sortRanges l) := by
  induction l with
  | nil => simp [sortRanges]
  | cons x xs ih => exact insertSorted_pairwise x (sortRanges xs) ih

theorem insertSorted_perm (x : Range) (l : List Range) :
    List.Perm (insertSorted x l) (x :: l) := by
  induction l with
  | nil => simp [insertSorted]
  | cons y ys ih =>
    unfold insertSorted
    split_ifs
    · exact List.Perm.refl _
    · exact ((ih.cons y).trans (List.Perm.swap x y ys))

theorem sortRanges_perm (l : List Range) : List.Perm (sortRanges l) l := by
  induction l with
  | nil => exact List.Perm.refl _
  | cons x xs ih => exact (insertSorted_perm x (sortRanges xs)).trans (ih.cons x)

theorem range_eq_iff (a b : Range) : a = b ↔ (a.start = b.start ∧ a.stop = b.stop) := by
  cases a
  cases b
  simp [Range.mk.injEq]

/-- On a duplicate-free list of keys the sort is strictly increasing in the
lexicographic order of Range.__lt__. -/
theorem sortRanges_strict (l : List Range) (hnd : l.Nodup) :
    List.Pairwise (fun u v => Range.lt u v = true) (sortRanges l) := by
  have h1 := sortRanges_pairwise l
  have h2 : (sortRanges l).Nodup := ((sortRanges_perm l).nodup_iff).mpr hnd
  have h3 := List.Pairwise.and h2 h1
  refine h3.imp ?_
  rintro a b ⟨hab, hba⟩
  simp only [Bool.eq_false_iff, ne_eq, lt_iff_lex] at hba
  rw [lt_iff_lex]
  simp only [ne_eq, range_eq_iff] at hab
  omega

/-- The children of the ab element written by
TEIAnnotationWriter.write_annotations: one ptr or seg per merged sub-range,
in the order of sorted(merged_ranges); the entry is a seg exactly when its
annotation list is non-empty. -/
def write_annotations_children (m : MergedMap) : List (Range × List Nat) :=
  (sortRanges (dictKeys m)).map (fun r => (r, (dictGet m r).getD []))

/-- C10: write_annotations emits the ptr and seg children of the ab element
in strictly increasing lexicographic order of their merged sub-ranges,
regardless of the order in which annotations were supplied. -/
theorem write_annotations_sorted (L : Int) (annos : List Anno) (m : MergedMap)
    (he : TEIAnnotationWriter.merge_ranges L annos = some m) :
    List.Pairwise (fun x y => Range.lt x.1 y.1 = true)
      (write_annotations_children m) := by
  have hnd : (dictKeys m).Nodup := merge_ranges_nodup L annos m he
  have hp := sortRanges_strict (dictKeys m) hnd
  unfold write_annotations_children
  rw [List.pairwise_map]
  exact hp

/-- C10 witness: the sortedness theorem applied to the single-text example. -/
theorem write_annotations_sorted_witness :
    List.Pairwise (fun x y => Range.lt x.1 y.1 = true)
      (write_annotations_children
        [(⟨0, 2⟩, []), (⟨8, 10⟩, []), (⟨5, 8⟩, [1]), (⟨2, 4⟩, [0]), (⟨4, 5⟩, [0, 1])]) :=
  write_annotations_sorted 10 [⟨0, [⟨2, 5⟩]⟩, ⟨1, [⟨4, 8⟩]⟩]
    [(⟨0, 2⟩, []), (⟨8, 10⟩, []), (⟨5, 8⟩, [1]), (⟨2, 4⟩, [0]), (⟨4, 5⟩, [0, 1])]
    (by decide)
/-! ### Text chunks and position pointers -/

/-- Mirrors class XMLSourceDocumentChunk: a chunk of document text, either a
node text, a node tail, or an artificial newline.  The owning XML node is
identified by a numeric id (None for newline chunks).  Python equality of
chunks compares range, tail flag and newline flag only, not the node. -/
structure XMLSourceDocumentChunk where
  range : Range
  node : Option Nat
  is_tail : Bool
  is_newline : Bool
deriving DecidableEq

/-- Python operator XMLSourceDocumentChunk.__eq__: equality by range, tail
flag and newline flag (the node is not compared). -/
def chunkEq (c d : XMLSourceDocumentChunk) : Bool :=
  decide (c.range = d.range) && (c.is_tail == d.is_tail) && (c.is_newline == d.is_newline)

/-- Mirrors class XMLSourceDocumentPositionPointer. -/
structure XMLSourceDocumentPositionPointer where
  search_pos : Int
  pos : Int
  chunks : List XMLSourceDocumentChunk
  locked : Bool
deriving DecidableEq

namespace XMLSourceDocumentPositionPointer

/-- The constructor __init__(search_pos). -/
def init (search_pos : Int) : XMLSourceDocumentPositionPointer :=
  ⟨search_pos, 0, [], false⟩

/-- Method is_greater. -/
def is_greater (self : XMLSourceDocumentPositionPointer) (pos : Int) : Bool :=
  decide (self.pos > pos)

/-- Method lock. -/
def lock (self : XMLSourceDocumentPositionPointer) : XMLSourceDocumentPositionPointer :=
  { self with locked := true }

/-- Method is_locked. -/
def is_locked (self : XMLSourceDocumentPositionPointer) : Bool :=
  self.locked

/-- Method increment: moves the pointer forward by the text amount of the
given node text or tail.  The Python code reads len(node.text) or
len(node.tail); the caller supplies that length here. -/
def increment (self : XMLSourceDocumentPositionPointer) (node : Nat) (textLen : Nat)
    (is_tail : Bool) : XMLSourceDocumentPositionPointer :=
  if self.locked then self
  else
    let start_pos := self.pos
    let newPos := self.pos + (textLen : Int)
    let moved : XMLSourceDocumentPositionPointer :=
      { self with
        pos := newPos,
        chunks := self.chunks ++ [⟨⟨start_pos, newPos⟩, some node, is_tail, false⟩] }
    if moved.is_greater moved.search_pos then moved.lock else moved

/-- Method increment_by_newline. -/
def increment_by_newline (self : XMLSourceDocumentPositionPointer) :
    XMLSourceDocumentPositionPointer :=
  if self.locked then self
  else
    let start_pos := self.pos
    let newPos := self.pos + 1
    let moved : XMLSourceDocumentPositionPointer :=
      { self with
        pos := newPos,
        chunks := self.chunks ++ [⟨⟨start_pos, newPos⟩, none, false, true⟩] }
    if moved.is_greater moved.search_pos then moved.lock else moved

/-- The loop of get_max_matching_chunk over the reversed chunk list,
carrying the passed_search_pos flag. -/
def max_matching_go (sp : Int) :
    List XMLSourceDocumentChunk → Bool → Option XMLSourceDocumentChunk
  | [], _ => none
  | chunk :: rest, passed =>
    let is_in_range := chunk.range.is_in_between_inclusive_edge sp
    if !chunk.is_newline && (is_in_range || passed) then some chunk
    else max_matching_go sp rest (passed || is_in_range)

/-- Method get_max_matching_chunk. -/
def get_max_matching_chunk (self : XMLSourceDocumentPositionPointer) :
    Option XMLSourceDocumentChunk :=
  max_matching_go self.search_pos self.chunks.reverse false

/-- The loop of get_min_matching_chunk over the reversed chunk list,
carrying the last visited chunk. -/
def min_matching_go (sp : Int) :
    List XMLSourceDocumentChunk → Option XMLSourceDocumentChunk →
      Option XMLSourceDocumentChunk
  | [], last_chunk => last_chunk
  | chunk :: rest, last_chunk =>
    if !(chunk.range.is_in_between_inclusive_edge sp) &&
        (match last_chunk with
         | some lc => !lc.is_newline
         | none => false) then
      last_chunk
    else
      min_matching_go sp rest (some chunk)

/-- Method get_min_matching_chunk. -/
def get_min_matching_chunk (self : XMLSourceDocumentPositionPointer) :
    Option XMLSourceDocumentChunk :=
  min_matching_go self.search_pos self.chunks.reverse none

end XMLSourceDocumentPositionPointer

/-- The selector described by the claim for get_min_matching_chunk, stated
from its words: walking the trail from newest to oldest, return the chunk
immediately after (in trail order) the first non-newline chunk that does not
contain the target under the inclusive-edge predicate; if no such chunk
exists, return the oldest chunk of the trail.  This definition follows the
claim, not the source, and is only compared against the source selector. -/
def min_matching_claimed_go (sp : Int) :
    List XMLSourceDocumentChunk → Option XMLSourceDocumentChunk →
      Option XMLSourceDocumentChunk
  | [], _ => none
  | chunk :: rest, prev =>
    if !chunk.is_newline && !(chunk.range.is_in_between_inclusive_edge sp) then prev
    else min_matching_claimed_go sp rest (some chunk)

/-- See min_matching_claimed_go; the fallback clause of the claim. -/
def min_matching_claimed (chunks : List XMLSourceDocumentChunk) (sp : Int) :
    Option XMLSourceDocumentChunk :=
  match min_matching_claimed_go sp chunks.reverse none with
  | some c => some c
  | none => chunks.head?

/-- C6 counterexample: a pointer with target 3 walked over a text chunk
[0,2), an artificial newline [2,3) and a text chunk [3,5).  The trail is
reachable by the pointer's own increments.  The source selector returns the
oldest chunk [0,2) itself, whereas the claim prescribes the chunk
immediately after it in trail order, the newline chunk [2,3). -/
theorem min_matching_counterexample :
    (((XMLSourceDocumentPositionPointer.init 3).increment 0 2 false).increment_by_newline.increment
        1 2 false).chunks =
      [⟨⟨0, 2⟩, some 0, false, false⟩, ⟨⟨2, 3⟩, none, false, true⟩,
        ⟨⟨3, 5⟩, some 1, false, false⟩] ∧
    XMLSourceDocumentPositionPointer.get_min_matching_chunk
        ⟨3, 5, [⟨⟨0, 2⟩, some 0, false, false⟩, ⟨⟨2, 3⟩, none, false, true⟩,
          ⟨⟨3, 5⟩, some 1, false, false⟩], true⟩ =
      some ⟨⟨0, 2⟩, some 0, false, false⟩ ∧
    min_matching_claimed
        [⟨⟨0, 2⟩, some 0, false, false⟩, ⟨⟨2, 3⟩, none, false, true⟩,
          ⟨⟨3, 5⟩, some 1, false, false⟩] 3 =
      some ⟨⟨2, 3⟩, none, false, true⟩ ∧
    (some (⟨⟨0, 2⟩, some 0, false, false⟩ : XMLSourceDocumentChunk) ≠
      some (⟨⟨2, 3⟩, none, false, true⟩ : XMLSourceDocumentChunk)) := by
  decide

/-- The amended selector, stated over positions rather than by the loop: in
the reversed trail pair every chunk with its trail-successor; the result is
the successor in the first pair whose chunk does not contain the target and
whose successor is not a newline; if no pair qualifies, the oldest chunk. -/
def min_matching_amended (chunks : List XMLSourceDocumentChunk) (sp : Int) :
    Option XMLSourceDocumentChunk :=
  match (chunks.reverse.tail.zip chunks.reverse).find?
      (fun pr => !(pr.1.range.is_in_between_inclusive_edge sp) && !pr.2.is_newline) with
  | some pr => some pr.2
  | none => chunks.head?

theorem min_matching_go_eq (sp : Int) :
    ∀ (rest : List XMLSourceDocumentChunk) (c : XMLSourceDocumentChunk),
      XMLSourceDocumentPositionPointer.min_matching_go sp rest (some c) =
        match (rest.zip (c :: rest)).find?
            (fun pr => !(pr.1.range.is_in_between_inclusive_edge sp) && !pr.2.is_newline) with
        | some pr => some pr.2
        | none => (c :: rest).getLast? := by
  intro rest
  induction rest with
  | nil =>
    intro c
    simp [XMLSourceDocumentPositionPointer.min_matching_go]
  | cons d rest' ih =>
    intro c
    rw [List.zip_cons_cons, List.find?_cons]
    by_cases hcond : (!(d.range.is_in_between_inclusive_edge sp) && !c.is_newline) = true
    · unfold XMLSourceDocumentPositionPointer.min_matching_go
      rw [if_pos hcond, hcond]
    · unfold XMLSourceDocumentPositionPointer.min_matching_go
      rw [if_neg hcond, ih d]
      have hcond' : (!(d.range.is_in_between_inclusive_edge sp) && !c.is_newline) = false :=
        Bool.eq_false_iff.mpr hcond
      rw [hcond']
      rcases hfind : (rest'.zip (d :: rest')).find?
          (fun pr => !(pr.1.range.is_in_between_inclusive_edge sp) && !pr.2.is_newline) with
        _ | pr
      · simp
      · simp

/-- C6 amended: the source selector get_min_matching_chunk agrees with the
amended position-wise description for every pointer. -/
theorem min_matching_eq_amended (p : XMLSourceDocumentPositionPointer) :
    p.get_min_matching_chunk = min_matching_amended p.chunks p.search_pos := by
  unfold XMLSourceDocumentPositionPointer.get_min_matching_chunk min_matching_amended
  rcases hr : p.chunks.reverse with _ | ⟨c, rest⟩
  · have hnil : p.chunks = [] := by
      have := congrArg List.reverse hr
      simpa using this
    rw [hnil]
    rfl
  · unfold XMLSourceDocumentPositionPointer.min_matching_go
    have hfirst : (!(c.range.is_in_between_inclusive_edge p.search_pos) &&
        (match (none : Option XMLSourceDocumentChunk) with
         | some lc => !lc.is_newline
         | none => false)) = false := by
      simp
    rw [hfirst]
    simp only [Bool.false_eq_true, if_false]
    rw [min_matching_go_eq p.search_pos rest c, List.tail_cons]
    have hhead : p.chunks.head? = (c :: rest).getLast? := by
      rw [← List.getLast?_reverse, hr]
    rw [hhead]
/-! ### The stand-off pointer targets: writing and parsing -/

/-- Python str.upper on the characters of a string (ASCII letters; the
document ids are hexadecimal UUID strings). -/
def upperChars (cs : List Char) : List Char :=
  cs.map Char.toUpper

/-- Python target[target.rfind(sep) + 1:]: everything after the last
occurrence of sep, the whole string when sep is absent. -/
def afterLast (sep : Char) (cs : List Char) : List Char :=
  (cs.reverse.takeWhile (fun c => !(c = sep : Bool))).reverse

/-- Python str.split(sep) for a one-character separator. -/
def splitOnChar (sep : Char) : List Char → List (List Char)
  | [] => [[]]
  | c :: rest =>
    if c = sep then [] :: splitOnChar sep rest
    else
      match splitOnChar sep rest with
      | [] => [[c]]
      | g :: gs => (c :: g) :: gs

/-- The decimal digit characters used by Python str(int). -/
def digitCh (m : Nat) : Char :=
  match m with
  | 0 => '0'
  | 1 => '1'
  | 2 => '2'
  | 3 => '3'
  | 4 => '4'
  | 5 => '5'
  | 6 => '6'
  | 7 => '7'
  | 8 => '8'
  | _ => '9'

/-- Decimal rendering of a natural number, with fuel to keep the recursion
structural (the fuel n + 1 always suffices). -/
def natToCharsAux : Nat → Nat → List Char
  | 0, _ => []
  | fuel + 1, n =>
    if n < 10 then [digitCh n]
    else natToCharsAux fuel (n / 10) ++ [digitCh (n % 10)]

/-- Python str(n) for a natural number. -/
def natToChars (n : Nat) : List Char :=
  natToCharsAux (n + 1) n

/-- Python str(n) for an integer. -/
def intToChars (n : Int) : List Char :=
  if n < 0 then '-' :: natToChars (-n).toNat else natToChars n.toNat

/-- The digits value parser underlying Python int() (sign handled by
parseInt); fails on empty or non-digit input as int() raises ValueError. -/
def parseNatDigits (cs : List Char) : Option Nat :=
  if cs ≠ [] ∧ cs.all Char.isDigit then
    some (cs.foldl (fun a c => a * 10 + (c.toNat - 48)) 0)
  else
    none

/-- Python int() on a string: optional sign followed by decimal digits
(surrounding whitespace and underscore separators, which int() also
accepts, do not occur in pointer targets and are not modelled). -/
def parseInt (cs : List Char) : Option Int :=
  match cs with
  | [] => none
  | c :: rest =>
    if c = '-' then (parseNatDigits rest).map (fun k => -(Int.ofNat k))
    else if c = '+' then (parseNatDigits rest).map (fun k => Int.ofNat k)
    else (parseNatDigits cs).map (fun k => Int.ofNat k)

/-- Function extract_range: parses a Range from a ptr target such as
catma://CATMA_...#char=42,48.  Python slices after the last '=' and splits
on ','; int() failures and a missing second component raise, modelled as
none. -/
def extract_range (target : List Char) : Option Range :=
  let range_str := afterLast '=' target
  match splitOnChar ',' range_str with
  | a :: b :: _ =>
    match parseInt a, parseInt b with
    | some x, some y => some ⟨x, y⟩
    | _, _ => none
  | _ => none

/-- Whether the second list begins the first. -/
def beginsWith : List Char → List Char → Bool
  | _, [] => true
  | [], _ :: _ => false
  | c :: cs, d :: ds => (c = d : Bool) && beginsWith cs ds

/-- First index at which the pattern begins inside the list. -/
def indexOfSub (cs pat : List Char) : Option Nat :=
  match cs with
  | [] => if pat = [] then some 0 else none
  | _ :: rest =>
    if beginsWith cs pat then some 0
    else (indexOfSub rest pat).map (· + 1)

/-- First index of a character. -/
def indexOfChar (cs : List Char) (c : Char) : Option Nat :=
  cs.findIdx? (fun d => d = c)

/-- Method TEIAnnotationReader.extract_documentid:
target[target.find("CATMA_") + 6 : target.find("#")].  The Python -1 result
of find for absent markers (which would wrap around) is not modelled; both
markers are present in every writer-formatted target. -/
def extract_documentid (target : List Char) : List Char :=
  let i := (indexOfSub target ("CATMA_".toList)).getD 0 + 6
  let j := (indexOfChar target '#').getD target.length
  (target.drop i).take (j - i)

/-- Method TEIAnnotationReader.extract_pointer_document_properties: reads
the target of the last ptr element (document order) and returns the end
offset of its range together with the document id.  An empty ptr list or an
unparsable target raises in Python, modelled as none. -/
def extract_pointer_document_properties (targets : List (List Char)) :
    Option (Int × List Char) :=
  match targets.getLast? with
  | none => none
  | some target =>
    match extract_range target with
    | some last_range => some (last_range.stop, extract_documentid target)
    | none => none

/-- Method TEIAnnotationWriter.add_ptr: the target attribute written for a
sub-range, catma://CATMA_ + str(documentid).upper() + #char= + start + ,
+ end. -/
def add_ptr_target (documentid : List Char) (anno_range : Range) : List Char :=
  ("catma://CATMA_".toList) ++ upperChars documentid ++ ("#char=".toList) ++
    intToChars anno_range.start ++ [','] ++ intToChars anno_range.stop
theorem digitCh_isDigit (m : Nat) (h : m < 10) : (digitCh m).isDigit = true := by
  interval_cases m <;> decide

theorem digitCh_toNat (m : Nat) (h : m < 10) : (digitCh m).toNat - 48 = m := by
  interval_cases m <;> decide

theorem isDigit_ne (c : Char) (h : c.isDigit = true) :
    c ≠ '-' ∧ c ≠ '+' ∧ c ≠ ',' ∧ c ≠ '=' := by
  refine ⟨?_, ?_, ?_, ?_⟩ <;> (rintro rfl; exact absurd h (by decide))

theorem natToCharsAux_spec :
    ∀ (fuel n : Nat), n < fuel →
      (natToCharsAux fuel n ≠ [] ∧ (natToCharsAux fuel n).all Char.isDigit = true ∧
       (natToCharsAux fuel n).foldl (fun a c => a * 10 + (c.toNat - 48)) 0 = n) := by
  intro fuel
  induction fuel with
  | zero => intro n h; omega
  | succ fuel ih =>
    intro n h
    unfold natToCharsAux
    by_cases h10 : n < 10
    · rw [if_pos h10]
      refine ⟨by simp, ?_, ?_⟩
      · simp [digitCh_isDigit n h10]
      · simp [List.foldl]
        exact digitCh_toNat n h10
    · rw [if_neg h10]
      have hdiv : n / 10 < fuel := by
        have h1 : n / 10 < n := Nat.div_lt_self (by omega) (by omega)
        omega
      obtain ⟨ih1, ih2, ih3⟩ := ih (n / 10) hdiv
      refine ⟨by simp, ?_, ?_⟩
      · rw [List.all_append, ih2]
        simp [digitCh_isDigit (n % 10) (Nat.mod_lt n (by omega))]
      · rw [List.foldl_append, ih3]
        simp only [List.foldl]
        rw [digitCh_toNat (n % 10) (Nat.mod_lt n (by omega))]
        omega

theorem parseNatDigits_natToChars (n : Nat) :
    parseNatDigits (natToChars n) = some n := by
  obtain ⟨h1, h2, h3⟩ := natToCharsAux_spec (n + 1) n (Nat.lt_succ_self n)
  unfold parseNatDigits natToChars
  rw [if_pos ⟨h1, h2⟩, h3]

theorem parseInt_neg_cons (cs : List Char) :
    parseInt ('-' :: cs) = (parseNatDigits cs).map (fun k => -(Int.ofNat k)) := rfl

theorem parseInt_other (c : Char) (cs : List Char) (hm : c ≠ '-') (hp : c ≠ '+') :
    parseInt (c :: cs) = (parseNatDigits (c :: cs)).map (fun k => Int.ofNat k) := by
  show (if c = '-' then (parseNatDigits cs).map (fun k => -(Int.ofNat k))
      else if c = '+' then (parseNatDigits cs).map (fun k => Int.ofNat k)
      else (parseNatDigits (c :: cs)).map (fun k => Int.ofNat k)) =
    (parseNatDigits (c :: cs)).map (fun k => Int.ofNat k)
  rw [if_neg hm, if_neg hp]

theorem parseInt_intToChars (n : Int) : parseInt (intToChars n) = some n := by
  unfold intToChars
  split_ifs with hneg
  · rw [parseInt_neg_cons, parseNatDigits_natToChars]
    simp only [Option.map_some', Option.some.injEq, Int.ofNat_eq_coe]
    omega
  · obtain ⟨h1, h2, _⟩ := natToCharsAux_spec ((n.toNat) + 1) n.toNat (Nat.lt_succ_self _)
    rcases hcs : natToChars n.toNat with _ | ⟨c, rest⟩
    · exact absurd hcs h1
    · have hcd : c.isDigit = true := by
        have h2' : (natToChars n.toNat).all Char.isDigit = true := h2
        rw [hcs, List.all_cons, Bool.and_eq_true] at h2'
        exact h2'.1
      obtain ⟨hm, hp, _, _⟩ := isDigit_ne c hcd
      rw [parseInt_other c rest hm hp, ← hcs, parseNatDigits_natToChars]
      simp only [Option.map_some', Option.some.injEq, Int.ofNat_eq_coe]
      omega

theorem mem_intToChars (n : Int) (c : Char) (h : c ∈ intToChars n) :
    c.isDigit = true ∨ c = '-' := by
  unfold intToChars at h
  split_ifs at h
  · rcases List.mem_cons.mp h with rfl | h'
    · exact Or.inr rfl
    · obtain ⟨_, h2, _⟩ := natToCharsAux_spec ((-n).toNat + 1) (-n).toNat (Nat.lt_succ_self _)
      exact Or.inl (List.all_eq_true.mp h2 c h')
  · obtain ⟨_, h2, _⟩ := natToCharsAux_spec (n.toNat + 1) n.toNat (Nat.lt_succ_self _)
    exact Or.inl (List.all_eq_true.mp h2 c h)

theorem comma_not_mem_intToChars (n : Int) : ',' ∉ intToChars n := by
  intro h
  rcases mem_intToChars n ',' h with hd | he
  · exact absurd hd (by decide)
  · exact absurd he (by decide)

theorem eqch_not_mem_intToChars (n : Int) : '=' ∉ intToChars n := by
  intro h
  rcases mem_intToChars n '=' h with hd | he
  · exact absurd hd (by decide)
  · exact absurd he (by decide)

theorem takeWhile_append_all (p : Char → Bool) (l1 l2 : List Char)
    (h : ∀ c ∈ l1, p c = true) :
    (l1 ++ l2).takeWhile p = l1 ++ l2.takeWhile p := by
  induction l1 with
  | nil => simp
  | cons c l1 ih =>
    rw [List.cons_append, List.takeWhile_cons_of_pos (h c (List.mem_cons_self _ _)),
      List.cons_append]
    exact congrArg (fun t => c :: t) (ih (fun d hd => h d (List.mem_cons_of_mem _ hd)))

theorem afterLast_append (sep : Char) (xs ys : List Char) (h : sep ∉ ys) :
    afterLast sep (xs ++ sep :: ys) = ys := by
  unfold afterLast
  rw [List.reverse_append, List.reverse_cons, List.append_assoc, List.singleton_append]
  rw [takeWhile_append_all _ ys.reverse (sep :: xs.reverse) ?hall]
  case hall =>
    intro c hc
    have : c ≠ sep := by
      intro rfl2
      exact h (List.mem_reverse.mp (rfl2 ▸ hc))
    simp [this]
  rw [List.takeWhile_cons_of_neg (by simp)]
  simp

theorem splitOnChar_no_sep (sep : Char) (xs : List Char) (h : sep ∉ xs) :
    splitOnChar sep xs = [xs] := by
  induction xs with
  | nil => rfl
  | cons c rest ih =>
    have hc : ¬ (c = sep) := fun he => h (he ▸ List.mem_cons_self _ _)
    have hr : sep ∉ rest := fun hm => h (List.mem_cons_of_mem _ hm)
    rw [splitOnChar, if_neg hc, ih hr]

theorem splitOnChar_append (sep : Char) (xs ys : List Char) (h : sep ∉ xs) :
    splitOnChar sep (xs ++ sep :: ys) = xs :: splitOnChar sep ys := by
  induction xs with
  | nil =>
    show splitOnChar sep (sep :: ys) = [] :: splitOnChar sep ys
    rw [splitOnChar, if_pos rfl]
  | cons c rest ih =>
    have hc : ¬ (c = sep) := fun he => h (he ▸ List.mem_cons_self _ _)
    have hr : sep ∉ rest := fun hm => h (List.mem_cons_of_mem _ hm)
    rw [List.cons_append, splitOnChar, if_neg hc, ih hr]

theorem extract_range_add_ptr (documentid : List Char) (r : Range) :
    extract_range (add_ptr_target documentid r) = some ⟨r.start, r.stop⟩ := by
  have hsplit : ("#char=".toList : List Char) = ['#', 'c', 'h', 'a', 'r'] ++ ['='] := rfl
  have hshape : add_ptr_target documentid r =
      (("catma://CATMA_".toList ++ upperChars documentid) ++ ['#', 'c', 'h', 'a', 'r']) ++
        '=' :: (intToChars r.start ++ ',' :: intToChars r.stop) := by
    unfold add_ptr_target
    rw [hsplit]
    simp [List.append_assoc]
  have hys : '=' ∉ intToChars r.start ++ ',' :: intToChars r.stop := by
    intro hm
    rcases List.mem_append.mp hm with hm1 | hm2
    · exact eqch_not_mem_intToChars r.start hm1
    · rcases List.mem_cons.mp hm2 with he | hm3
      · exact absurd he (by decide)
      · exact eqch_not_mem_intToChars r.stop hm3
  unfold extract_range
  rw [hshape]
  simp only [afterLast_append _ _ _ hys,
    splitOnChar_append ',' (intToChars r.start) (intToChars r.stop)
      (comma_not_mem_intToChars r.start),
    splitOnChar_no_sep ',' (intToChars r.stop) (comma_not_mem_intToChars r.stop),
    parseInt_intToChars]

/-- C9: the reader sets text_length to the end offset parsed from the
target attribute of the last ptr element under text/body/ab: for every
document-ordered ptr target list whose last element is a target written by
add_ptr for a sub-range, text_length is that sub-range's end offset. -/
theorem text_length_from_last_ptr (targets : List (List Char))
    (documentid : List Char) (r : Range)
    (hne : targets ≠ [])
    (hlast : targets.getLast hne = add_ptr_target documentid r) :
    ∃ docid, extract_pointer_document_properties targets = some (r.stop, docid) := by
  unfold extract_pointer_document_properties
  rw [List.getLast?_eq_getLast targets hne, hlast]
  simp only [extract_range_add_ptr documentid r]
  exact ⟨extract_documentid (add_ptr_target documentid r), rfl⟩

/-- C9 witness: a single writer-formatted target with range [42,48) yields
text_length 48. -/
theorem text_length_from_last_ptr_witness :
    ∃ docid, extract_pointer_document_properties
        [add_ptr_target ("doc1".toList) ⟨42, 48⟩] = some (48, docid) :=
  text_length_from_last_ptr [add_ptr_target ("doc1".toList) ⟨42, 48⟩]
    ("doc1".toList) ⟨42, 48⟩ (by decide) rfl
/-! ### XML documents and single-chunk annotation application -/

/-- An XML element as held by xml.etree: tag name, attributes in insertion
order, optional text and tail content, and the child elements in order.
Nodes are identified by numeric ids in a flat store; the children field
lists child ids. -/
structure XMLNode where
  tag : List Char
  attrib : List (List Char × List Char)
  text : Option (List Char)
  tail : Option (List Char)
  children : List Nat
deriving DecidableEq

/-- The node store of a document: an id-keyed association list. -/
abbrev XMLStore := List (Nat × XMLNode)

/-- Node lookup by id. -/
def storeGet : XMLStore → Nat → Option XMLNode
  | [], _ => none
  | (i, n) :: rest, j => if i = j then some n else storeGet rest j

/-- In-place node update by id, mirroring Python attribute assignment on a
node object; an absent id leaves the store unchanged (in Python the object
always exists, so this branch is never taken). -/
def storeSet : XMLStore → Nat → XMLNode → XMLStore
  | [], _, _ => []
  | (i, n) :: rest, j, v => if i = j then (j, v) :: rest else (i, n) :: storeSet rest j v

/-- parent_map lookup (child id to parent id). -/
def pmGet : List (Nat × Nat) → Nat → Option Nat
  | [], _ => none
  | (i, p) :: rest, j => if i = j then some p else pmGet rest j

/-- Python list.index over child id lists, None modelling the ValueError. -/
def indexOfNatAux : Nat → List Nat → Nat → Option Nat
  | _, [], _ => none
  | k, y :: rest, x => if y = x then some k else indexOfNatAux (k + 1) rest x

/-- Python list.insert(i, v): inserts before position i, appending when i
runs past the end. -/
def pyInsert : List Nat → Nat → Nat → List Nat
  | xs, 0, v => v :: xs
  | [], _ + 1, v => [v]
  | x :: xs, k + 1, v => x :: pyInsert xs k v

/-- The whitespace characters stripped by Python str.strip() (the ASCII
ones that can occur in the documents modelled here). -/
def isPySpace (c : Char) : Bool :=
  c = ' ' || c = '\t' || c = '\n' || c = '\r'

/-- Python str.strip(). -/
def stripChars (cs : List Char) : List Char :=
  ((cs.dropWhile isPySpace).reverse.dropWhile isPySpace).reverse

/-- Function has_text_content: the node has text and its stripped text is
non empty. -/
def has_text_content (node : XMLNode) : Bool :=
  match node.text with
  | none => false
  | some t => decide (0 < (stripChars t).length)

/-- Function has_tail_content. -/
def has_tail_content (node : XMLNode) : Bool :=
  match node.tail with
  | none => false
  | some t => decide (0 < (stripChars t).length)

/-- A Python slice index normalised against a length: negative indices
count from the end, and both ends clamp to [0, len]. -/
def pySliceIdx (len : Nat) (i : Int) : Nat :=
  if i < 0 then (((len : Int) + i).toNat).min len else (i.toNat).min len

/-- Python s[a:b] on a character list. -/
def pySlice (s : List Char) (a b : Int) : List Char :=
  (s.take (pySliceIdx s.length b)).drop (pySliceIdx s.length a)

/-- Python s[a:]. -/
def pySliceFrom (s : List Char) (a : Int) : List Char :=
  s.drop (pySliceIdx s.length a)

/-- Python s[:b]. -/
def pySliceUpTo (s : List Char) (b : Int) : List Char :=
  s.take (pySliceIdx s.length b)

/-- Mirrors class Tag as far as apply uses it: name, uuid and optional
parent (the remaining constructor arguments only feed the TEI writer). -/
inductive Tag where
  | mk (name : List Char) (uuid : List Char) (parent : Option Tag)

/-- The name of a Tag. -/
def Tag.name : Tag → List Char
  | .mk n _ _ => n

/-- The uuid of a Tag. -/
def Tag.uuid : Tag → List Char
  | .mk _ u _ => u

/-- Method Tag.get_path: the hierarchy path such as /myroottag/mytag. -/
def Tag.get_path : Tag → List Char
  | .mk name _ none => '/' :: name
  | .mk name _ (some p) => p.get_path ++ '/' :: name

/-- Mirrors class Annotation as far as apply uses it: the typing Tag, the
uuid, the properties (name to joined-value list, in iteration order) and
the ranges. -/
structure CAnno where
  tag : Tag
  uuid : List Char
  properties : List (List Char × List (List Char))
  ranges : List Range

/-- Function get_catma_uuid_as_str: CATMA_ followed by the uppercased
uuid. -/
def get_catma_uuid_as_str (u : List Char) : List Char :=
  "CATMA_".toList ++ upperChars u

/-- Membership of string.ascii_letters + string.digits. -/
def isPyAlnum (c : Char) : Bool :=
  ('a' ≤ c && c ≤ 'z') || ('A' ≤ c && c ≤ 'Z') || ('0' ≤ c && c ≤ '9')

/-- Membership of string.digits. -/
def isPyDigit (c : Char) : Bool :=
  '0' ≤ c && c ≤ '9'

/-- Function create_default_element_name_from_tag with the default
non-ascii mapper: a leading T when the name starts with a digit, then every
non-alphanumeric character replaced by an underscore (Python indexes
name[0], so the empty name raises; it is mapped here without the T). -/
def create_default_element_name_from_tag (tag : Tag) : List Char :=
  (match tag.name with
   | c :: _ => if isPyDigit c then ['T'] else []
   | [] => []) ++ tag.name.map (fun c => if isPyAlnum c then c else '_')

/-- Function create_default_attribute_name_from_property with the default
non-ascii mapper. -/
def create_default_attribute_name_from_property (name : List Char) : List Char :=
  (match name with
   | c :: _ => if isPyDigit c then ['P'] else []
   | [] => []) ++ name.map (fun c => if isPyAlnum c then c else '_')

/-- Python ",".join on a value list. -/
def joinComma : List (List Char) → List Char
  | [] => []
  | [v] => v
  | v :: rest => v ++ ',' :: joinComma rest

/-- Python dict assignment on an attribute list: overwrite in place or
append. -/
def attrSet : List (List Char × List Char) → List Char → List Char →
    List (List Char × List Char)
  | [], k, v => [(k, v)]
  | (k0, v0) :: rest, k, v =>
    if k0 = k then (k, v) :: rest else (k0, v0) :: attrSet rest k v

/-- The document state mutated by apply: the node store, the child-to-
parent map and the next free node id. -/
structure ApplyState where
  nodes : XMLStore
  parent_map : List (Nat × Nat)
  fresh : Nat
deriving DecidableEq

/-- Method XMLSourceDocumentChunk.get_text with a range argument: a newline
chunk yields a newline, otherwise the slice of the node text or tail
shifted by the chunk start. -/
def chunk_get_text (nodes : XMLStore) (self : XMLSourceDocumentChunk)
    (text_range : Range) : Option (List Char) :=
  if self.is_newline then some ['\n']
  else do
    let nid ← self.node
    let node ← storeGet nodes nid
    let t ← if self.is_tail then node.tail else node.text
    some (pySlice t (text_range.start - self.range.start)
      (text_range.stop - self.range.start))

/-- Method XMLSourceDocumentChunk.get_text_from. -/
def chunk_get_text_from (nodes : XMLStore) (self : XMLSourceDocumentChunk)
    (pos : Int) : Option (List Char) :=
  if self.is_newline && decide (pos - self.range.start > 0) then some ['\n']
  else if self.is_newline then some []
  else do
    let nid ← self.node
    let node ← storeGet nodes nid
    let t ← if self.is_tail then node.tail else node.text
    some (pySliceFrom t (pos - self.range.start))

/-- Method XMLSourceDocumentChunk.get_text_up_to. -/
def chunk_get_text_up_to (nodes : XMLStore) (self : XMLSourceDocumentChunk)
    (pos : Int) : Option (List Char) :=
  if self.is_newline && decide (pos - self.range.start > 0) then some ['\n']
  else if self.is_newline then some []
  else do
    let nid ← self.node
    let node ← storeGet nodes nid
    let t ← if self.is_tail then node.tail else node.text
    some (pySliceUpTo t (pos - self.range.start))

/-- Method XMLSourceDocumentChunk.apply for the document state: splits the
chunk text into the part before the annotation, the annotated part and the
trailing part, creates the annotation element with the annotationId, tagId
and tagPath attributes followed by the annotation properties, inserts it
(after the owning node for a tail chunk, at child position 0 for a text
chunk), rewrites the owning node text or tail to the non-annotated head,
and sets the new element text and, when non empty, its tail.  The chunk
range updates and the new chunks feed only recalculate_positions, which
rewrites pointers of other pending applications and never touches the
tree; the resulting tree state is returned. -/
def chunk_apply (st : ApplyState) (self : XMLSourceDocumentChunk)
    (anno : CAnno) (merged_range : Range) : Option ApplyState := do
  let anno_text ← chunk_get_text st.nodes self merged_range
  let new_text_or_tail ← chunk_get_text_up_to st.nodes self merged_range.start
  let anno_tail ← chunk_get_text_from st.nodes self merged_range.stop
  let props0 :=
    [(create_default_attribute_name_from_property "annotationId".toList,
        get_catma_uuid_as_str anno.uuid),
     (create_default_attribute_name_from_property "tagId".toList,
        get_catma_uuid_as_str anno.tag.uuid),
     (create_default_attribute_name_from_property "tagPath".toList,
        anno.tag.get_path)]
  let props := anno.properties.foldl
    (fun ps nv =>
      attrSet ps (create_default_attribute_name_from_property nv.1) (joinComma nv.2))
    props0
  let anno_el_id := st.fresh
  let nid ← self.node
  let st1 ←
    if self.is_tail then do
      let parent_id ← pmGet st.parent_map nid
      let parent ← storeGet st.nodes parent_id
      let idx ← indexOfNatAux 0 parent.children nid
      let nodes1 := storeSet st.nodes parent_id
        { parent with children := pyInsert parent.children (idx + 1) anno_el_id }
      let node ← storeGet nodes1 nid
      let nodes2 := storeSet nodes1 nid { node with tail := some new_text_or_tail }
      some (ApplyState.mk nodes2 (st.parent_map ++ [(anno_el_id, parent_id)]) st.fresh)
    else do
      let node ← storeGet st.nodes nid
      let nodes1 := storeSet st.nodes nid
        { node with children := anno_el_id :: node.children,
                    text := some new_text_or_tail }
      some (ApplyState.mk nodes1 (st.parent_map ++ [(anno_el_id, nid)]) st.fresh)
  let anno_el : XMLNode :=
    { tag := create_default_element_name_from_tag anno.tag,
      attrib := props,
      text := some anno_text,
      tail := if 0 < anno_tail.length then some anno_tail else none,
      children := [] }
  some (ApplyState.mk (st1.nodes ++ [(anno_el_id, anno_el)]) st1.parent_map
    (st1.fresh + 1))

/-- The child loop of XMLSourceDocument.seek_position: recurse into each
child in order and return as soon as the pointer locks. -/
def seekChildren
    (f : Nat → XMLSourceDocumentPositionPointer →
      Option XMLSourceDocumentPositionPointer) :
    List Nat → XMLSourceDocumentPositionPointer →
      Option XMLSourceDocumentPositionPointer
  | [], pos => some pos
  | c :: rest, pos => do
    let pos ← f c pos
    if pos.is_locked then some pos else seekChildren f rest pos

/-- Method XMLSourceDocument.seek_position: pre-order walk that increments
the pointer by the node text, the children, an artificial newline when the
node has text or children, and the node tail.  The Python recursion runs on
the actual tree; the fuel bounds the depth and none models running out
(never reached for an acyclic store with enough fuel).  len(node.text) is
only read under has_text_content, so the getD default is never used. -/
def seek_position (store : XMLStore) :
    Nat → Nat → XMLSourceDocumentPositionPointer →
      Option XMLSourceDocumentPositionPointer
  | 0, _, _ => none
  | fuel + 1, nid, pos0 => do
    let node ← storeGet store nid
    let pos := if has_text_content node then
        pos0.increment nid (node.text.getD []).length false
      else pos0
    if pos.is_locked then some pos
    else do
      let pos ← seekChildren (seek_position store fuel) node.children pos
      if pos.is_locked then some pos
      else
        let pos := if has_text_content node || decide (0 < node.children.length) then
            pos.increment_by_newline
          else pos
        let pos := if has_tail_content node then
            pos.increment nid (node.tail.getD []).length true
          else pos
        some pos

/-- Method XMLSourceDocument.apply for one annotation with one merged
range: Python sorts the annotation ranges, merges adjacent ones, builds a
position pointer pair per merged range by seek_position and applies each
resulting document annotation.  This embedding covers a single merged range
and, as XMLSourceDocumentAnnotation.apply, the branch where the start chunk
equals the end chunk (single-chunk application); the multi-range and
multi-chunk paths, which interleave with pointer recalculation, are
modelled as none and therefore never witness a some result. -/
def XMLSourceDocument_apply_single (st : ApplyState) (root : Nat)
    (anno : CAnno) : Option ApplyState := do
  let ranges := Range.merge_ranges (sortRanges anno.ranges)
  match ranges with
  | [r] => do
    let start_pos ← seek_position st.nodes (st.nodes.length + 1) root
      (XMLSourceDocumentPositionPointer.init r.start)
    let end_pos ← seek_position st.nodes (st.nodes.length + 1) root
      (XMLSourceDocumentPositionPointer.init r.stop)
    let start_chunk ← start_pos.get_max_matching_chunk
    let end_chunk ← end_pos.get_min_matching_chunk
    if chunkEq start_chunk end_chunk then
      chunk_apply st start_chunk anno r
    else none
  | _ => none

/-- C4: applying the annotation with merged range [1,4) and tag X (tag uuid
t-1, annotation uuid u-1) to the document <r>hello</r> yields
<r>h<X>ell</X>o</r>: the root text becomes h, a new child element named X
is inserted at child position 0 with text ell and tail o, it carries the
attributes annotationId CATMA_U-1, tagId CATMA_T-1 and tagPath /X, and it
is registered in the parent map under the root. -/
theorem apply_single_chunk_example :
    XMLSourceDocument_apply_single
      ⟨[(0, ⟨"r".toList, [], some "hello".toList, none, []⟩)], [], 1⟩ 0
      ⟨Tag.mk "X".toList "t-1".toList none, "u-1".toList, [], [⟨1, 4⟩]⟩ =
    some ⟨[(0, ⟨"r".toList, [], some "h".toList, none, [1]⟩),
           (1, ⟨"X".toList,
                [("annotationId".toList, "CATMA_U-1".toList),
                 ("tagId".toList, "CATMA_T-1".toList),
                 ("tagPath".toList, "/X".toList)],
                some "ell".toList, some "o".toList, []⟩)],
          [(1, 0)], 2⟩ := by decide

end Catma
